import Mathlib

/-!
# Depsgraph debugging tools (`source/blender/depsgraph/intern/depsgraph_debug.cc`)

A shallow embedding of `DEG_debug_compare`, `DEG_debug_consistency_check`,
`DEG_stats_simple` and `DEG_stringify_recalc_flags`, and theorems about them.

Objects live on a heap and are referred to by address, so that relation identity
(`tmp_rel == rel`) and node identity are equality of addresses, and the same object
may be listed several times in a vector.

Machine integers.  The `int` counters and the `uint32_t` field `num_links_pending`
are 32-bit: every `++` is taken modulo `2 ^ 32`.  An `int` counter is represented by
its two's complement bit pattern, which is all `!=` looks at.  `size_t` totals are
taken modulo `2 ^ 64`.
-/

namespace DegDebug

/-- Address of a `deg::Node` object. -/
abbrev NodePtr := Nat

/-- Address of a `deg::Relation` object. -/
abbrev RelationPtr := Nat

/-- Modelled from the spec: the enumeration `deg::NodeType` is declared in
`intern/node/deg_node.hh`, which is not part of the sources at hand.  The code only
compares against `OPERATION`; the other constructors stand for the node kinds the
spec names (time source, top-level id node, component). -/
inductive NodeType
  | UNDEFINED
  | OPERATION
  | TIMESOURCE
  | ID_REF
  | COMPONENT
deriving DecidableEq, Repr

/-- Modelled from the spec: the fields of `deg::Node` and `deg::OperationNode` that
`depsgraph_debug.cc` reads or writes (the structs are declared in
`intern/node/deg_node.hh` and `deg_node_operation.hh`).  `num_links_pending` is a
`uint32_t` (printed with `%u`), `custom_flags` an `int`; both belong to operation
nodes only and are never touched on other nodes. -/
structure Node where
  type : NodeType
  inlinks : List RelationPtr
  outlinks : List RelationPtr
  num_links_pending : Nat
  custom_flags : Int
deriving DecidableEq, Repr

/-- Modelled from the spec: `deg::Relation`, a directed edge `from -> to`
(`from` and `to` are written `from_` and `to_`, the plain words being reserved). -/
structure Relation where
  from_ : NodePtr
  to_ : NodePtr
deriving DecidableEq, Repr

/-- Modelled from the spec: a component node, of which `DEG_stats_simple` reads the
`operations` vector. -/
structure ComponentNode where
  operations : List NodePtr
deriving DecidableEq, Repr

/-- Modelled from the spec: an id node, of which `DEG_stats_simple` reads
`components.values()`. -/
structure IDNode where
  components : List ComponentNode
deriving DecidableEq, Repr

/-- The heap of node objects. -/
abbrev NodeHeap := NodePtr → Node

/-- The part of `deg::Depsgraph` used by the debugging tools, with the heap of the
objects it points to.  `time_source` is what `find_time_source()` returns
(`none` for `nullptr`). -/
structure Depsgraph where
  node : NodeHeap
  relation : RelationPtr → Relation
  operations : List NodePtr
  id_nodes : List IDNode
  time_source : Option NodePtr

/-- Number of values of a 32-bit integer. -/
def WRAP32 : Nat := 4294967296

/-- Number of values of a `size_t`. -/
def WRAP64 : Nat := 18446744073709551616

/-- Write the object at address `p`. -/
def store (h : NodeHeap) (p : NodePtr) (v : Node) : NodeHeap :=
  fun q => if q = p then v else h q

/-- The counting loops of the link check:
`int counter = 0; for (tmp_rel : links) if (tmp_rel == rel) counter++;`. -/
def count_links (rel : RelationPtr) (links : List RelationPtr) : Nat :=
  links.foldl (fun counter tmp_rel => if tmp_rel = rel then (counter + 1) % WRAP32 else counter) 0

/-- What the check prints. -/
inductive Report
  | outgoing_not_incoming (counter1 counter2 : Nat)
  | incoming_not_outgoing (counter1 counter2 : Nat)
  | twice_in_operations (node : NodePtr)
  | valency_mismatch (node : NodePtr) (cached recomputed inlinks : Nat)
deriving DecidableEq, Repr

/-- Lines 95-116: the loop over `node->outlinks`; `some (counter1, counter2)` is the
`return false` at the first relation whose two counters differ. -/
def scan_outlinks (g : Depsgraph) (node : NodePtr) : List RelationPtr → Option (Nat × Nat)
  | [] => none
  | rel :: rest =>
    let counter1 := count_links rel (g.node node).outlinks
    let counter2 := count_links rel (g.node (g.relation rel).to_).inlinks
    if counter1 ≠ counter2 then some (counter1, counter2) else scan_outlinks g node rest

/-- Lines 94-117: the forward scan over the operations. -/
def scan_forward (g : Depsgraph) : List NodePtr → Option (Nat × Nat)
  | [] => none
  | node :: rest =>
    match scan_outlinks g node (g.node node).outlinks with
    | some m => some m
    | none => scan_forward g rest

/-- Lines 120-138: the loop over `node->inlinks`, which prints and goes on. -/
def scan_inlinks (g : Depsgraph) (node : NodePtr) : List RelationPtr → List Report
  | [] => []
  | rel :: rest =>
    let counter1 := count_links rel (g.node node).inlinks
    let counter2 := count_links rel (g.node (g.relation rel).from_).outlinks
    (if counter1 ≠ counter2 then [Report.incoming_not_outgoing counter1 counter2] else [])
      ++ scan_inlinks g node rest

/-- Lines 119-139: the scan over the inlinks of all operations. -/
def scan_backward (g : Depsgraph) : List NodePtr → List Report
  | [] => []
  | node :: rest => scan_inlinks g node (g.node node).inlinks ++ scan_backward g rest

/-- Lines 142-145: zero `num_links_pending` and `custom_flags` of every operation. -/
def reset_valency : List NodePtr → NodeHeap → NodeHeap
  | [], h => h
  | node :: rest, h =>
    reset_valency rest (store h node { h node with num_links_pending := 0, custom_flags := 0 })

/-- Lines 152-158: the loop over `node->outlinks` of pass 1.  `BLI_assert` is compiled
out of release builds and has no effect on the state. -/
def count_outgoing (relation : RelationPtr → Relation) : List RelationPtr → NodeHeap → NodeHeap
  | [], h => h
  | rel :: rest, h =>
    let dst := (relation rel).to_
    if (h dst).type = NodeType.OPERATION then
      count_outgoing relation rest
        (store h dst { h dst with num_links_pending := ((h dst).num_links_pending + 1) % WRAP32 })
    else
      count_outgoing relation rest h

/-- Lines 147-160: pass 1.  `some node` is the `return false` at a node whose
`custom_flags` is already set. -/
def valency_pass1 (relation : RelationPtr → Relation) :
    List NodePtr → NodeHeap → Option NodePtr × NodeHeap
  | [], h => (none, h)
  | node :: rest, h =>
    if (h node).custom_flags ≠ 0 then (some node, h)
    else
      let h1 := count_outgoing relation (h node).outlinks h
      valency_pass1 relation rest (store h1 node { h1 node with custom_flags := 1 })

/-- Lines 163-168: `int num_links_pending = 0; for (rel : node->inlinks) ...`. -/
def count_operation_inlinks (h : NodeHeap) (relation : RelationPtr → Relation)
    (links : List RelationPtr) : Nat :=
  links.foldl
    (fun num_links_pending rel =>
      if (h (relation rel).from_).type = NodeType.OPERATION then (num_links_pending + 1) % WRAP32
      else num_links_pending) 0

/-- Lines 162-177: pass 2.  The comparison is between a `uint32_t` and an `int`, the
latter converted to unsigned, i.e. between bit patterns. -/
def valency_pass2 (h : NodeHeap) (relation : RelationPtr → Relation) :
    List NodePtr → Option Report
  | [] => none
  | node :: rest =>
    let num_links_pending := count_operation_inlinks h relation (h node).inlinks
    if (h node).num_links_pending ≠ num_links_pending then
      some (Report.valency_mismatch node (h node).num_links_pending num_links_pending
        ((h node).inlinks.length % WRAP32))
    else valency_pass2 h relation rest

/-- Result of a check: the returned boolean, the graph afterwards, and the output. -/
structure Outcome where
  ok : Bool
  graph : Depsgraph
  log : List Report

/-- Lines 93-139, "Validate links exists in both directions": `false` when the forward
scan returned `false`, otherwise `true` with the lines printed by the scan over the
inlinks, which never fails. -/
def validate_links (g : Depsgraph) : Bool × List Report :=
  match scan_forward g g.operations with
  | some (counter1, counter2) => (false, [Report.outgoing_not_incoming counter1 counter2])
  | none => (true, scan_backward g g.operations)

/-- Lines 141-178, "Validate node valency calculated in both directions". -/
def validate_valency (g : Depsgraph) : Outcome :=
  let h0 := reset_valency g.operations g.node
  match valency_pass1 g.relation g.operations h0 with
  | (some node, h1) => ⟨false, { g with node := h1 }, [Report.twice_in_operations node]⟩
  | (none, h1) =>
    match valency_pass2 h1 g.relation g.operations with
    | some report => ⟨false, { g with node := h1 }, [report]⟩
    | none => ⟨true, { g with node := h1 }, []⟩

/-- The function `DEG_debug_consistency_check` (lines 90-179). -/
def DEG_debug_consistency_check (g : Depsgraph) : Outcome :=
  match validate_links g with
  | (false, log) => ⟨false, g, log⟩
  | (true, log) =>
    let r := validate_valency g
    ⟨r.ok, r.graph, log ++ r.log⟩

/-- The function `DEG_debug_compare` (lines 55-71). -/
def DEG_debug_compare (graph1 graph2 : Depsgraph) : Bool :=
  if graph1.operations.length ≠ graph2.operations.length then false
  else true

/-- Lines 206-208: the loop over `comp_node->operations`, adding to `tot_rels`. -/
def stats_component (h : NodeHeap) (tot_rels : Nat) (comp_node : ComponentNode) : Nat :=
  comp_node.operations.foldl
    (fun tot_rels op_node => (tot_rels + (h op_node).inlinks.length) % WRAP64) tot_rels

/-- Lines 203-209: the body of the loop over `id_nodes`, on `(tot_outer, tot_rels)`. -/
def stats_id_node (h : NodeHeap) (tot : Nat × Nat) (id_node : IDNode) : Nat × Nat :=
  id_node.components.foldl
    (fun tot comp_node => ((tot.1 + 1) % WRAP64, stats_component h tot.2 comp_node))
    ((tot.1 + 1) % WRAP64, tot.2)

/-- Lines 199-215: `(tot_outer, tot_rels)` after the loop over `id_nodes` and the time
source. -/
def stats_totals (g : Depsgraph) : Nat × Nat :=
  let tot := g.id_nodes.foldl (stats_id_node g.node) (0, 0)
  match g.time_source with
  | some time_source => (tot.1, (tot.2 + (g.node time_source).inlinks.length) % WRAP64)
  | none => tot

/-- The function `DEG_stats_simple` (lines 183-224).  The three booleans tell which of
the output pointers `r_outer`, `r_operations`, `r_relations` are not null; the result
holds what is written through them, in this order (`none` where nothing is written). -/
def DEG_stats_simple (g : Depsgraph) (r_outer r_operations r_relations : Bool) :
    Option Nat × Option Nat × Option Nat :=
  let operations := if r_operations then some (g.operations.length % WRAP64) else none
  if r_outer || r_relations then
    let tot := stats_totals g
    (if r_outer then some tot.1 else none, operations,
      if r_relations then some tot.2 else none)
  else
    (none, operations, none)

/-- Index of the lowest set bit of `a` among its `fuel` lowest bits. -/
def lowest_bit : Nat → Nat → Nat
  | 0, _ => 0
  | fuel + 1, a => if a % 2 = 1 then 0 else lowest_bit fuel (a / 2) + 1

/-- Modelled from the spec: `bitscan_forward_uint` is declared in `BLI_math_bits.h`, which
is not part of the sources at hand, and the spec does not describe it; by its name it
scans a `uint` from bit 0 and returns the index of the lowest set bit. -/
def bitscan_forward_uint (a : Nat) : Nat := lowest_bit 32 a

/-- Modelled from the spec: `bitscan_forward_clear_uint(uint *a)` is declared in
`BLI_math_bits.h` as well; it returns `bitscan_forward_uint(*a)` and clears that bit with
`*a &= (*a) - 1`.  The pair is the returned index and the new value of `*a`. -/
def bitscan_forward_clear_uint (a : Nat) : Nat × Nat :=
  (bitscan_forward_uint a, a &&& (a - 1))

/-- The function `stringify_append_bit` (lines 363-375).  `DEG_update_tag_as_string` is
declared elsewhere and is a parameter: `none` stands for `nullptr`.  Tags are given by
their bit pattern. -/
def stringify_append_bit (DEG_update_tag_as_string : Nat → Option String) (str : String)
    (tag : Nat) : String :=
  match DEG_update_tag_as_string tag with
  | none => str
  | some tag_name =>
    let result := str
    let result := if result ≠ "" then result ++ ", " else result
    result ++ tag_name

/-- Lines 389-392: the loop `while (current_flag != 0)`, run for at most `fuel` rounds;
`none` when the rounds do not suffice. -/
def stringify_loop (DEG_update_tag_as_string : Nat → Option String) :
    Nat → Nat → String → Option String
  | 0, current_flag, result => if current_flag = 0 then some result else none
  | fuel + 1, current_flag, result =>
    if current_flag = 0 then some result
    else
      let scan := bitscan_forward_clear_uint current_flag
      stringify_loop DEG_update_tag_as_string fuel scan.2
        (stringify_append_bit DEG_update_tag_as_string result (1 <<< scan.1))

/-- The function `DEG_stringify_recalc_flags` (lines 377-394).  The constant
`ID_RECALC_PSYS_ALL` is declared elsewhere and is a parameter.  A `uint` has 32 bits and
the loop is given 32 rounds. -/
def DEG_stringify_recalc_flags (DEG_update_tag_as_string : Nat → Option String)
    (ID_RECALC_PSYS_ALL : Nat) (flags : Nat) : Option String :=
  if flags = 0 then some "NONE"
  else
    let result := ""
    let current_flag := flags
    let result :=
      if current_flag &&& ID_RECALC_PSYS_ALL = ID_RECALC_PSYS_ALL then
        stringify_append_bit DEG_update_tag_as_string result ID_RECALC_PSYS_ALL
      else result
    stringify_loop DEG_update_tag_as_string 32 current_flag result

/-- Lines 389-392 with the body left out: the tags the loop hands to
`stringify_append_bit`, one per round, in order. -/
def loop_tags : Nat → Nat → Option (List Nat)
  | 0, current_flag => if current_flag = 0 then some [] else none
  | fuel + 1, current_flag =>
    if current_flag = 0 then some []
    else
      let scan := bitscan_forward_clear_uint current_flag
      (loop_tags fuel scan.2).map (fun tags => (1 <<< scan.1) :: tags)

/-- The link vectors of every node are within the range of the `int` counters that
count their entries (signed overflow is undefined behaviour beyond it). -/
def LinksFitInt (g : Depsgraph) : Prop :=
  ∀ n : NodePtr, (g.node n).inlinks.length < 2147483648 ∧ (g.node n).outlinks.length < 2147483648

/-- Two heaps hold the same `type`, `inlinks` and `outlinks` at every address. -/
def SameLinks (h h' : NodeHeap) : Prop :=
  ∀ p, (h' p).type = (h p).type ∧ (h' p).inlinks = (h p).inlinks
    ∧ (h' p).outlinks = (h p).outlinks

/-- Number of entries of `links` whose source node is an operation node. -/
def operation_sources (g : Depsgraph) (links : List RelationPtr) : Nat :=
  links.countP (fun r => decide ((g.node (g.relation r).from_).type = NodeType.OPERATION))

/-- A node without links. -/
def bare (t : NodeType) : Node :=
  { type := t, inlinks := [], outlinks := [], num_links_pending := 0, custom_flags := 0 }

/-- The chain of three operation nodes `A -> B -> C` (addresses 0, 1, 2) with single
mirrored relations (addresses 0 and 1).  The scratch fields start with stale values. -/
def chain3 : Depsgraph where
  node := fun p =>
    match p with
    | 0 => { type := .OPERATION, inlinks := [], outlinks := [0],
             num_links_pending := 7, custom_flags := 1 }
    | 1 => { type := .OPERATION, inlinks := [0], outlinks := [1],
             num_links_pending := 0, custom_flags := 0 }
    | 2 => { type := .OPERATION, inlinks := [1], outlinks := [],
             num_links_pending := 5, custom_flags := 0 }
    | _ => bare .UNDEFINED
  relation := fun r => if r = 0 then ⟨0, 1⟩ else ⟨1, 2⟩
  operations := [0, 1, 2]
  id_nodes := []
  time_source := none

/-- Perfectly mirrored link lists: every relation occurs in its source node's outlinks
exactly as many times as in its destination node's inlinks. -/
def Mirrored (g : Depsgraph) : Prop :=
  ∀ r : RelationPtr,
    (g.node (g.relation r).from_).outlinks.count r = (g.node (g.relation r).to_).inlinks.count r

/-- The graph `g` with the entry at position `i` of `m`'s inlinks removed and nothing
else changed. -/
def remove_inlink (g : Depsgraph) (m : NodePtr) (i : Nat) : Depsgraph :=
  { g with node := store g.node m { g.node m with inlinks := (g.node m).inlinks.eraseIdx i } }

/-- A time source `T` (address 0) with one relation (address 0) to the only operation
`A` (address 1), listed once in `T`'s outlinks and once in `A`'s inlinks. -/
def timed : Depsgraph where
  node := fun p =>
    match p with
    | 0 => { type := .TIMESOURCE, inlinks := [], outlinks := [0],
             num_links_pending := 0, custom_flags := 0 }
    | 1 => { type := .OPERATION, inlinks := [0], outlinks := [],
             num_links_pending := 0, custom_flags := 0 }
    | _ => bare .UNDEFINED
  relation := fun _ => ⟨0, 1⟩
  operations := [1]
  id_nodes := []
  time_source := some 0

/-- Operations `A`, `B`, `C` (addresses 0, 1, 2) and one relation `A -> B` (address 0),
listed in `A`'s outlinks and `B`'s inlinks, and twice more in the inlinks of `C`, which
is not its destination. -/
def stray_inlink : Depsgraph where
  node := fun p =>
    match p with
    | 0 => { type := .OPERATION, inlinks := [], outlinks := [0],
             num_links_pending := 0, custom_flags := 0 }
    | 1 => { type := .OPERATION, inlinks := [0], outlinks := [],
             num_links_pending := 0, custom_flags := 0 }
    | 2 => { type := .OPERATION, inlinks := [0, 0], outlinks := [],
             num_links_pending := 0, custom_flags := 0 }
    | _ => bare .UNDEFINED
  relation := fun _ => ⟨0, 1⟩
  operations := [0, 1, 2]
  id_nodes := []
  time_source := none

/-- Operations `A`, `B`, `C` (addresses 0, 1, 2) and one relation `A -> B` (address 0),
listed in `A`'s outlinks and `B`'s inlinks, and twice more in the outlinks of `C`, which
is not its source. -/
def stray_outlink : Depsgraph where
  node := fun p =>
    match p with
    | 0 => { type := .OPERATION, inlinks := [], outlinks := [0],
             num_links_pending := 0, custom_flags := 0 }
    | 1 => { type := .OPERATION, inlinks := [0], outlinks := [],
             num_links_pending := 0, custom_flags := 0 }
    | 2 => { type := .OPERATION, inlinks := [], outlinks := [0, 0],
             num_links_pending := 0, custom_flags := 0 }
    | _ => bare .UNDEFINED
  relation := fun _ => ⟨0, 1⟩
  operations := [0, 1, 2]
  id_nodes := []
  time_source := none

/-- Every relation listed in a node's outlinks has that node as its source. -/
def OutPlaced (g : Depsgraph) : Prop :=
  ∀ n : NodePtr, ∀ r ∈ (g.node n).outlinks, (g.relation r).from_ = n

/-- Every relation listed in a node's inlinks has that node as its destination. -/
def InPlaced (g : Depsgraph) : Prop :=
  ∀ n : NodePtr, ∀ r ∈ (g.node n).inlinks, (g.relation r).to_ = n

/-- Operations `A` and `B` (addresses 0, 1) with one mirrored relation `A -> B`
(address 0), where `A` is registered a second time at the end of the operations list. -/
def twice_listed : Depsgraph where
  node := fun p =>
    match p with
    | 0 => { type := .OPERATION, inlinks := [], outlinks := [0],
             num_links_pending := 0, custom_flags := 0 }
    | 1 => { type := .OPERATION, inlinks := [0], outlinks := [],
             num_links_pending := 0, custom_flags := 0 }
    | _ => bare .UNDEFINED
  relation := fun _ => ⟨0, 1⟩
  operations := [0, 1, 0]
  id_nodes := []
  time_source := none

/-- A graph without any relation whose operations list registers the node at address 0
twice. -/
def bare_twice : Depsgraph where
  node := fun _ => bare .OPERATION
  relation := fun _ => ⟨0, 0⟩
  operations := [0, 0]
  id_nodes := []
  time_source := none

/-- Three operations (addresses 0, 1, 2) and no relation at all; the scratch fields start
with stale values. -/
def bare3 : Depsgraph where
  node := fun _ => { type := .OPERATION, inlinks := [], outlinks := [],
                     num_links_pending := 9, custom_flags := 1 }
  relation := fun _ => ⟨0, 0⟩
  operations := [0, 1, 2]
  id_nodes := []
  time_source := none

/-- No node has any entry in its inlinks or outlinks. -/
def NoLinks (g : Depsgraph) : Prop :=
  ∀ p : NodePtr, (g.node p).inlinks = [] ∧ (g.node p).outlinks = []

/-- A time source `T` (address 0) and one operation `A` (address 1) whose inlinks list a
relation `T -> A` (address 0) that `T`'s outlinks do not list. -/
def half_linked : Depsgraph where
  node := fun p =>
    match p with
    | 0 => bare .TIMESOURCE
    | 1 => { type := .OPERATION, inlinks := [0], outlinks := [],
             num_links_pending := 0, custom_flags := 0 }
    | _ => bare .UNDEFINED
  relation := fun _ => ⟨0, 1⟩
  operations := [1]
  id_nodes := []
  time_source := some 0

/-- Number of id nodes plus the total number of component nodes over all id nodes. -/
def outer_count (g : Depsgraph) : Nat :=
  g.id_nodes.length + (g.id_nodes.map (fun id_node => id_node.components.length)).sum

/-- Sum of the inlinks sizes over the operations of one component. -/
def component_relations (h : NodeHeap) (comp_node : ComponentNode) : Nat :=
  (comp_node.operations.map (fun op_node => (h op_node).inlinks.length)).sum

/-- Sum of the inlinks sizes over every operation of every component of one id node. -/
def id_node_relations (h : NodeHeap) (id_node : IDNode) : Nat :=
  (id_node.components.map (component_relations h)).sum

/-- Sum of the inlinks sizes over every operation of every component of every id node,
plus the inlinks size of the time source when there is one. -/
def relation_count (g : Depsgraph) : Nat :=
  (g.id_nodes.map (id_node_relations g.node)).sum
    + (match g.time_source with
       | some time_source => (g.node time_source).inlinks.length
       | none => 0)

/-- The three totals are within the range of `size_t`. -/
def StatsFitSizeT (g : Depsgraph) : Prop :=
  g.operations.length < WRAP64 ∧ outer_count g < WRAP64 ∧ relation_count g < WRAP64

/-- The chain `A -> B -> C` grouped under two id nodes, the first with the components
`[A, B]` and `[C]`, the second with none, and a time source (address 3) with one entry in
its inlinks. -/
def scene : Depsgraph where
  node := fun p =>
    match p with
    | 3 => { type := .TIMESOURCE, inlinks := [2], outlinks := [],
             num_links_pending := 0, custom_flags := 0 }
    | p => chain3.node p
  relation := chain3.relation
  operations := chain3.operations
  id_nodes := [⟨[⟨[0, 1]⟩, ⟨[2]⟩]⟩, ⟨[]⟩]
  time_source := some 3

/-- The empty graph. -/
def empty_graph : Depsgraph where
  node := fun _ => bare .UNDEFINED
  relation := fun _ => ⟨0, 0⟩
  operations := []
  id_nodes := []
  time_source := none

/-- The graphs `g1` and `g2` are identical except for the `num_links_pending` and
`custom_flags` of the nodes in the operations list. -/
def SameButScratch (g1 g2 : Depsgraph) : Prop :=
  g2.relation = g1.relation ∧ g2.operations = g1.operations ∧ g2.id_nodes = g1.id_nodes ∧
    g2.time_source = g1.time_source ∧ SameLinks g1.node g2.node ∧
    ∀ p, p ∉ g1.operations → g2.node p = g1.node p

/-- The graph `stray_outlink` with other scratch values in the operation at address 0. -/
def stray_outlink_stale : Depsgraph :=
  { stray_outlink with
    node := store stray_outlink.node 0
      { stray_outlink.node 0 with num_links_pending := 5, custom_flags := 1 } }

/-- The graph `chain3` with other scratch values in the operation at address 1. -/
def chain3_stale : Depsgraph :=
  { chain3 with
    node := store chain3.node 1 { chain3.node 1 with num_links_pending := 3, custom_flags := 1 } }

/-- Number of entries of `links` whose destination is the operation node `m`. -/
def entries_into (g : Depsgraph) (m : NodePtr) (links : List RelationPtr) : Nat :=
  links.countP
    (fun r => decide ((g.relation r).to_ = m ∧ (g.node m).type = NodeType.OPERATION))

/-- Number of outlinks entries, taken over the nodes of `ops`, whose destination is the
operation node `m`. -/
def incoming_count (g : Depsgraph) (ops : List NodePtr) (m : NodePtr) : Nat :=
  (ops.map (fun n => entries_into g m (g.node n).outlinks)).sum

/-- The count that pass 1 accumulates in a node of the operations list is within the
range of the `uint32_t` field that holds it. -/
def PendingFits (g : Depsgraph) : Prop :=
  ∀ m ∈ g.operations, incoming_count g g.operations m < WRAP32

/-- Lines 152-158 with the `BLI_assert` of line 155 evaluated along the way: `true` when
`to->num_links_pending < to->inlinks.size()` holds before every increment of the loop
(`size()` is a 64-bit integer, so the comparison is exact). -/
def assert_outgoing (relation : RelationPtr → Relation) : List RelationPtr → NodeHeap → Bool
  | [], _ => true
  | rel :: rest, h =>
    let dst := (relation rel).to_
    if (h dst).type = NodeType.OPERATION then
      decide ((h dst).num_links_pending < (h dst).inlinks.length) &&
        assert_outgoing relation rest
          (store h dst { h dst with num_links_pending := ((h dst).num_links_pending + 1) % WRAP32 })
    else
      assert_outgoing relation rest h

/-- Lines 147-160 with the `BLI_assert` evaluated: `true` when the assertion holds before
every increment that pass 1 makes, up to its end or to its `return false`. -/
def assert_pass1 (relation : RelationPtr → Relation) : List NodePtr → NodeHeap → Bool
  | [], _ => true
  | node :: rest, h =>
    if (h node).custom_flags ≠ 0 then true
    else
      assert_outgoing relation (h node).outlinks h &&
        assert_pass1 relation rest
          (store (count_outgoing relation (h node).outlinks h) node
            { count_outgoing relation (h node).outlinks h node with custom_flags := 1 })

/-- Every destination of type `OPERATION` of a relation listed in the outlinks of a node
of the operations list is itself in the operations list. -/
def DestinationsListed (g : Depsgraph) : Prop :=
  ∀ n ∈ g.operations, ∀ r ∈ (g.node n).outlinks,
    (g.node (g.relation r).to_).type = NodeType.OPERATION → (g.relation r).to_ ∈ g.operations

/-- Every endpoint of every relation listed in some node's inlinks or outlinks is an
operation node. -/
def OperationOnly (g : Depsgraph) : Prop :=
  ∀ n : NodePtr, ∀ r, r ∈ (g.node n).inlinks ∨ r ∈ (g.node n).outlinks →
    (g.node (g.relation r).from_).type = NodeType.OPERATION ∧
      (g.node (g.relation r).to_).type = NodeType.OPERATION

/-- Every endpoint of type `OPERATION` of every relation listed in some node's inlinks or
outlinks is in the operations list. -/
def EndpointsListed (g : Depsgraph) : Prop :=
  ∀ n : NodePtr, ∀ r, r ∈ (g.node n).inlinks ∨ r ∈ (g.node n).outlinks →
    ((g.node (g.relation r).from_).type = NodeType.OPERATION →
      (g.relation r).from_ ∈ g.operations) ∧
    ((g.node (g.relation r).to_).type = NodeType.OPERATION →
      (g.relation r).to_ ∈ g.operations)

/-- The nodes of the operations list, a `Vector<OperationNode *>`, are operation nodes:
their `type` is `OPERATION`. -/
def OperationsTyped (g : Depsgraph) : Prop :=
  ∀ n ∈ g.operations, (g.node n).type = NodeType.OPERATION

/-- A tag-naming function in the manner of `DEG_update_tag_as_string`: it names the
combined particle-system tag `(1 << 3) | (1 << 4) | (1 << 5) | (1 << 6)`, each of its four
bits, and the three bits below them. -/
def sample_tag_name (tag : Nat) : Option String :=
  if tag = 120 then some "PSYS_ALL"
  else if tag = 1 then some "TRANSFORM"
  else if tag = 2 then some "GEOMETRY"
  else if tag = 4 then some "ANIMATION"
  else if tag = 8 then some "PSYS_REDO"
  else if tag = 16 then some "PSYS_RESET"
  else if tag = 32 then some "PSYS_CHILD"
  else if tag = 64 then some "PSYS_PHYS"
  else none

/-- Positions of the set bits of a 32-bit value, in ascending order. -/
def set_bits (flags : Nat) : List Nat :=
  (List.range 32).filter (fun i => flags.testBit i)

/-- The tags that `DEG_stringify_recalc_flags` hands to `stringify_append_bit`: the
combined tag `mask` first when `flags` contains the whole mask, then the single-bit tags
of `flags` in ascending bit order. -/
def handled_tags (mask flags : Nat) : List Nat :=
  (if flags &&& mask = mask then [mask] else []) ++ (set_bits flags).map (fun i => 2 ^ i)

/-- The names of the handled tags that have a name, joined by `", "`. -/
def joined_names (name : Nat → Option String) (mask flags : Nat) : String :=
  ", ".intercalate ((handled_tags mask flags).filterMap name)

/-- What `stringify_append_bit` does to `str` for a tag whose name is `tag_name`. -/
def append_name (str tag_name : String) : String :=
  (if str ≠ "" then str ++ ", " else str) ++ tag_name

/-- A tag-naming function that gives the tag of bit 0 the empty name. -/
def blank_first (tag : Nat) : Option String :=
  if tag = 1 then some "" else if tag = 2 then some "A" else none

/-- A tag-naming function that gives the tag of bit 1 the empty name. -/
def blank_last (tag : Nat) : Option String :=
  if tag = 1 then some "A" else if tag = 2 then some "" else none

/-! ## The counting loops -/

theorem foldl_count_wrap {α : Type} (p : α → Prop) [DecidablePred p] (l : List α) (c : Nat) :
    l.foldl (fun counter x => if p x then (counter + 1) % WRAP32 else counter) c % WRAP32
      = (c + l.countP (fun x => decide (p x))) % WRAP32 := by
  induction l generalizing c with
  | nil => simp
  | cons a l ih =>
    simp only [List.foldl_cons, List.countP_cons]
    rw [ih]
    by_cases hp : p a
    · simp only [hp, if_true, decide_True]
      unfold WRAP32
      omega
    · simp [hp]

theorem foldl_count_lt {α : Type} (p : α → Prop) [DecidablePred p] (l : List α) (c : Nat)
    (hc : c < WRAP32) :
    l.foldl (fun counter x => if p x then (counter + 1) % WRAP32 else counter) c < WRAP32 := by
  induction l generalizing c with
  | nil => simpa using hc
  | cons a l ih =>
    simp only [List.foldl_cons]
    apply ih
    by_cases hp : p a
    · simp only [hp, if_true]
      exact Nat.mod_lt _ (by unfold WRAP32; omega)
    · simpa [hp] using hc

theorem count_links_eq (rel : RelationPtr) (links : List RelationPtr) :
    count_links rel links = links.count rel % WRAP32 := by
  have h1 := foldl_count_wrap (fun x => x = rel) links 0
  have h2 := foldl_count_lt (fun x => x = rel) links 0 (by unfold WRAP32; omega)
  unfold count_links
  rw [← Nat.mod_eq_of_lt h2, h1, Nat.zero_add]
  congr 1

theorem count_links_of_short (rel : RelationPtr) (links : List RelationPtr)
    (h : links.length < WRAP32) : count_links rel links = links.count rel := by
  rw [count_links_eq]
  exact Nat.mod_eq_of_lt (lt_of_le_of_lt (List.count_le_length rel links) h)

/-! ## The forward scan -/

theorem scan_outlinks_eq_none (g : Depsgraph) (node : NodePtr) (l : List RelationPtr) :
    scan_outlinks g node l = none ↔
      ∀ r ∈ l, count_links r (g.node node).outlinks
        = count_links r (g.node (g.relation r).to_).inlinks := by
  induction l with
  | nil => simp [scan_outlinks]
  | cons a l ih =>
    simp only [scan_outlinks, List.mem_cons, forall_eq_or_imp]
    by_cases hc : count_links a (g.node node).outlinks
        = count_links a (g.node (g.relation a).to_).inlinks
    · simp [hc, ih]
    · simp [hc]

theorem scan_forward_eq_none (g : Depsgraph) (ops : List NodePtr) :
    scan_forward g ops = none ↔
      ∀ n ∈ ops, ∀ r ∈ (g.node n).outlinks, count_links r (g.node n).outlinks
        = count_links r (g.node (g.relation r).to_).inlinks := by
  induction ops with
  | nil => simp [scan_forward]
  | cons a l ih =>
    simp only [scan_forward, List.mem_cons, forall_eq_or_imp]
    cases hs : scan_outlinks g a (g.node a).outlinks with
    | none =>
      simp only [ih]
      exact ⟨fun h => ⟨(scan_outlinks_eq_none g a _).1 hs, h⟩, fun h => h.2⟩
    | some m =>
      simp only [false_iff, not_and, reduceCtorEq]
      intro h
      rw [(scan_outlinks_eq_none g a _).2 h] at hs
      cases hs

theorem validate_links_true (g : Depsgraph) :
    (validate_links g).1 = true ↔ scan_forward g g.operations = none := by
  unfold validate_links
  cases scan_forward g g.operations with
  | none => simp
  | some m => simp

theorem consistency_ok_links (g : Depsgraph) (h : (DEG_debug_consistency_check g).ok = true) :
    scan_forward g g.operations = none := by
  rw [← validate_links_true]
  unfold DEG_debug_consistency_check at h
  rcases hv : validate_links g with ⟨b, log⟩
  rw [hv] at h
  cases b with
  | true => rfl
  | false => simp at h

/-! ## Structure of the whole check -/

/-- The heap at the end of pass 1. -/
theorem validate_valency_graph (g : Depsgraph) :
    (validate_valency g).graph
      = { g with node := (valency_pass1 g.relation g.operations
            (reset_valency g.operations g.node)).2 } := by
  unfold validate_valency
  dsimp only
  generalize valency_pass1 g.relation g.operations (reset_valency g.operations g.node) = p
  rcases p with ⟨d, h⟩
  cases d with
  | some node => rfl
  | none =>
    dsimp only
    cases valency_pass2 h g.relation g.operations <;> rfl

theorem validate_valency_ok (g : Depsgraph) :
    (validate_valency g).ok = true ↔
      (valency_pass1 g.relation g.operations (reset_valency g.operations g.node)).1 = none ∧
      valency_pass2 (valency_pass1 g.relation g.operations
        (reset_valency g.operations g.node)).2 g.relation g.operations = none := by
  unfold validate_valency
  dsimp only
  generalize valency_pass1 g.relation g.operations (reset_valency g.operations g.node) = p
  rcases p with ⟨d, h⟩
  cases d with
  | some node => simp
  | none =>
    dsimp only
    cases valency_pass2 h g.relation g.operations <;> simp

theorem consistency_ok_iff (g : Depsgraph) :
    (DEG_debug_consistency_check g).ok = true ↔
      scan_forward g g.operations = none ∧ (validate_valency g).ok = true := by
  unfold DEG_debug_consistency_check validate_links
  cases scan_forward g g.operations with
  | none => simp
  | some m => simp

theorem consistency_graph_of_links (g : Depsgraph) (h : scan_forward g g.operations = none) :
    (DEG_debug_consistency_check g).graph = (validate_valency g).graph := by
  unfold DEG_debug_consistency_check validate_links
  rw [h]

theorem consistency_graph_of_mismatch (g : Depsgraph)
    (h : scan_forward g g.operations ≠ none) :
    (DEG_debug_consistency_check g).graph = g := by
  unfold DEG_debug_consistency_check validate_links
  cases hs : scan_forward g g.operations with
  | none => exact absurd hs h
  | some m => rfl

/-! ## What the valency passes leave alone -/

theorem SameLinks.refl (h : NodeHeap) : SameLinks h h := fun _ => ⟨rfl, rfl, rfl⟩

theorem SameLinks.trans {h1 h2 h3 : NodeHeap} (a : SameLinks h1 h2) (b : SameLinks h2 h3) :
    SameLinks h1 h3 := fun p =>
  ⟨(b p).1.trans (a p).1, (b p).2.1.trans (a p).2.1, (b p).2.2.trans (a p).2.2⟩

theorem sameLinks_store (h : NodeHeap) (p : NodePtr) (v : Node) (ht : v.type = (h p).type)
    (hi : v.inlinks = (h p).inlinks) (ho : v.outlinks = (h p).outlinks) :
    SameLinks h (store h p v) := by
  intro q
  unfold store
  by_cases hq : q = p
  · subst hq; simp [ht, hi, ho]
  · simp [hq]

theorem sameLinks_reset (ops : List NodePtr) (h : NodeHeap) :
    SameLinks h (reset_valency ops h) := by
  induction ops generalizing h with
  | nil => exact SameLinks.refl h
  | cons a l ih =>
    simp only [reset_valency]
    refine SameLinks.trans ?_ (ih _)
    exact sameLinks_store h a _ rfl rfl rfl

theorem sameLinks_count_outgoing (relation : RelationPtr → Relation) (l : List RelationPtr)
    (h : NodeHeap) : SameLinks h (count_outgoing relation l h) := by
  induction l generalizing h with
  | nil => exact SameLinks.refl h
  | cons a l ih =>
    simp only [count_outgoing]
    split
    · refine SameLinks.trans ?_ (ih _)
      exact sameLinks_store h _ _ rfl rfl rfl
    · exact ih _

theorem sameLinks_pass1 (relation : RelationPtr → Relation) (ops : List NodePtr)
    (h : NodeHeap) : SameLinks h (valency_pass1 relation ops h).2 := by
  induction ops generalizing h with
  | nil => exact SameLinks.refl h
  | cons a l ih =>
    simp only [valency_pass1]
    split
    · exact SameLinks.refl h
    · refine SameLinks.trans ?_ (ih _)
      refine SameLinks.trans (sameLinks_count_outgoing relation (h a).outlinks h) ?_
      exact sameLinks_store _ a _ rfl rfl rfl

theorem sameLinks_valency (g : Depsgraph) : SameLinks g.node (validate_valency g).graph.node := by
  rw [validate_valency_graph]
  exact (sameLinks_reset _ _).trans (sameLinks_pass1 _ _ _)

theorem sameLinks_consistency (g : Depsgraph) :
    SameLinks g.node (DEG_debug_consistency_check g).graph.node := by
  by_cases h : scan_forward g g.operations = none
  · rw [consistency_graph_of_links g h]; exact sameLinks_valency g
  · rw [consistency_graph_of_mismatch g h]; exact SameLinks.refl _

/-! ## Pass 2 -/

theorem count_operation_inlinks_eq (g : Depsgraph) (h : NodeHeap) (hs : SameLinks g.node h)
    (links : List RelationPtr) :
    count_operation_inlinks h g.relation links = operation_sources g links % WRAP32 := by
  have h1 := foldl_count_wrap (fun r => (h (g.relation r).from_).type = NodeType.OPERATION) links 0
  have h2 := foldl_count_lt (fun r => (h (g.relation r).from_).type = NodeType.OPERATION) links 0
    (by unfold WRAP32; omega)
  unfold count_operation_inlinks operation_sources
  rw [← Nat.mod_eq_of_lt h2, h1, Nat.zero_add]
  congr 2
  funext r
  rw [(hs _).1]

theorem valency_pass2_eq_none (h : NodeHeap) (relation : RelationPtr → Relation)
    (ops : List NodePtr) :
    valency_pass2 h relation ops = none ↔
      ∀ n ∈ ops, (h n).num_links_pending = count_operation_inlinks h relation (h n).inlinks := by
  induction ops with
  | nil => simp [valency_pass2]
  | cons a l ih =>
    simp only [valency_pass2, List.mem_cons, forall_eq_or_imp]
    by_cases hc : (h a).num_links_pending = count_operation_inlinks h relation (h a).inlinks
    · simp [hc, ih]
    · simp [hc]

theorem consistency_relation (g : Depsgraph) :
    (DEG_debug_consistency_check g).graph.relation = g.relation := by
  by_cases h : scan_forward g g.operations = none
  · rw [consistency_graph_of_links g h, validate_valency_graph]
  · rw [consistency_graph_of_mismatch g h]

theorem operation_sources_congr (g g' : Depsgraph) (hr : g'.relation = g.relation)
    (hs : SameLinks g.node g'.node) (links : List RelationPtr) :
    operation_sources g' links = operation_sources g links := by
  unfold operation_sources
  congr 1
  funext r
  rw [hr, (hs _).1]

/-! ## The chain `A -> B -> C` -/

theorem chain3_fits : LinksFitInt chain3 := by
  intro n
  rcases n with _ | _ | _ | n
  · exact ⟨by decide, by decide⟩
  · exact ⟨by decide, by decide⟩
  · exact ⟨by decide, by decide⟩
  · exact ⟨show (0 : Nat) < 2147483648 by decide, show (0 : Nat) < 2147483648 by decide⟩

theorem chain3_ok : (DEG_debug_consistency_check chain3).ok = true := by decide

/-! ## Removing an inlinks entry -/

theorem count_eraseIdx_self {α : Type} [DecidableEq α] (l : List α) (i : Nat) (r : α)
    (h : l[i]? = some r) : (l.eraseIdx i).count r + 1 = l.count r := by
  induction l generalizing i with
  | nil => simp at h
  | cons a t ih =>
    cases i with
    | zero =>
      simp only [List.getElem?_cons_zero, Option.some.injEq] at h
      subst h
      simp
    | succ j =>
      simp only [List.getElem?_cons_succ] at h
      simp only [List.eraseIdx_cons_succ, List.count_cons]
      have := ih j h
      omega

theorem scan_outlinks_some (g : Depsgraph) (node : NodePtr) (l : List RelationPtr)
    (c : Nat × Nat) (h : scan_outlinks g node l = some c) : c.1 ≠ c.2 := by
  induction l with
  | nil => simp [scan_outlinks] at h
  | cons a l ih =>
    simp only [scan_outlinks] at h
    split at h
    · cases h; assumption
    · exact ih h

theorem scan_forward_some (g : Depsgraph) (ops : List NodePtr) (c : Nat × Nat)
    (h : scan_forward g ops = some c) : c.1 ≠ c.2 := by
  induction ops with
  | nil => simp [scan_forward] at h
  | cons a l ih =>
    simp only [scan_forward] at h
    split at h
    · rename_i m hm
      cases h
      exact scan_outlinks_some g a _ _ hm
    · exact ih h

theorem remove_inlink_outlinks (g : Depsgraph) (m : NodePtr) (i : Nat) (n : NodePtr) :
    ((remove_inlink g m i).node n).outlinks = (g.node n).outlinks := by
  unfold remove_inlink store
  by_cases h : n = m
  · subst h; simp
  · simp [h]

theorem remove_inlink_inlinks (g : Depsgraph) (m : NodePtr) (i : Nat) :
    ((remove_inlink g m i).node m).inlinks = (g.node m).inlinks.eraseIdx i := by
  simp [remove_inlink, store]

theorem consistency_not_ok_of_mismatch (g : Depsgraph)
    (h : scan_forward g g.operations ≠ none) :
    (validate_links g).1 = false ∧ (DEG_debug_consistency_check g).ok = false := by
  constructor
  · cases hv : (validate_links g).1 with
    | false => rfl
    | true => exact absurd ((validate_links_true g).1 hv) h
  · cases hv : (DEG_debug_consistency_check g).ok with
    | false => rfl
    | true => exact absurd (consistency_ok_links g hv) h

/-! ## The scratch fields during the valency passes -/

theorem reset_valency_apply (ops : List NodePtr) (h : NodeHeap) (p : NodePtr) :
    reset_valency ops h p
      = if p ∈ ops then { h p with num_links_pending := 0, custom_flags := 0 } else h p := by
  induction ops generalizing h with
  | nil => simp [reset_valency]
  | cons a l ih =>
    simp only [reset_valency, ih, List.mem_cons, store]
    by_cases hl : p ∈ l <;> by_cases ha : p = a <;> simp [hl, ha]

theorem count_outgoing_flags (relation : RelationPtr → Relation) (l : List RelationPtr)
    (h : NodeHeap) (p : NodePtr) :
    (count_outgoing relation l h p).custom_flags = (h p).custom_flags := by
  induction l generalizing h with
  | nil => rfl
  | cons a l ih =>
    simp only [count_outgoing]
    split
    · rw [ih]
      unfold store
      by_cases hp : p = (relation a).to_
      · subst hp; simp
      · simp [hp]
    · exact ih _

theorem valency_pass1_append (relation : RelationPtr → Relation) (l1 l2 : List NodePtr)
    (h : NodeHeap) (hl1 : (valency_pass1 relation l1 h).1 = none) :
    valency_pass1 relation (l1 ++ l2) h
      = valency_pass1 relation l2 (valency_pass1 relation l1 h).2 := by
  induction l1 generalizing h with
  | nil => rfl
  | cons a l ih =>
    simp only [valency_pass1, List.cons_append] at hl1 ⊢
    split
    · rename_i hf
      simp [hf] at hl1
    · rename_i hf
      simp only [hf, if_false] at hl1
      exact ih _ hl1

/-- Over a prefix without repetition whose nodes all start with `custom_flags = 0`,
pass 1 does not fail and leaves `custom_flags = 1` exactly on the nodes of the prefix. -/
theorem valency_pass1_nodup (relation : RelationPtr → Relation) (l : List NodePtr)
    (h : NodeHeap) (hz : ∀ p ∈ l, (h p).custom_flags = 0) (hnd : l.Nodup) :
    (valency_pass1 relation l h).1 = none ∧
      ∀ p, ((valency_pass1 relation l h).2 p).custom_flags
        = if p ∈ l then 1 else (h p).custom_flags := by
  induction l generalizing h with
  | nil => simp [valency_pass1]
  | cons a l ih =>
    have ha : (h a).custom_flags = 0 := hz a (List.mem_cons_self a l)
    obtain ⟨hal, hnd'⟩ := List.nodup_cons.1 hnd
    simp only [valency_pass1, ha, ne_eq, not_true_eq_false, if_false]
    have hz' : ∀ p ∈ l, (store (count_outgoing relation (h a).outlinks h) a
        { count_outgoing relation (h a).outlinks h a with custom_flags := 1 } p).custom_flags
          = 0 := by
      intro p hp
      have hpa : p ≠ a := fun e => hal (e ▸ hp)
      simp only [store, hpa, if_false, count_outgoing_flags]
      exact hz p (List.mem_cons_of_mem a hp)
    obtain ⟨h1, h2⟩ := ih _ hz' hnd'
    refine ⟨h1, fun p => ?_⟩
    rw [h2 p]
    by_cases hpl : p ∈ l
    · simp [hpl]
    · by_cases hpa : p = a
      · subst hpa; simp [hpl, store]
      · simp [hpl, hpa, store, count_outgoing_flags]

theorem exists_first_repeat {α : Type} (l : List α) (h : ¬ l.Nodup) :
    ∃ pre n post, l = pre ++ n :: post ∧ pre.Nodup ∧ n ∈ pre := by
  induction l using List.reverseRecOn with
  | nil => exact absurd List.nodup_nil h
  | append_singleton l a ih =>
    by_cases hl : l.Nodup
    · refine ⟨l, a, [], rfl, hl, ?_⟩
      by_contra ha
      apply h
      rw [List.nodup_append]
      exact ⟨hl, List.nodup_singleton a, by
        intro x hx hx'
        rw [List.mem_singleton] at hx'
        exact ha (hx' ▸ hx)⟩
    · obtain ⟨pre, n, post, e, hp, hn⟩ := ih hl
      exact ⟨pre, n, post ++ [a], by rw [e]; simp, hp, hn⟩

theorem validate_valency_twice (g : Depsgraph) (n : NodePtr) (h : NodeHeap)
    (hp : valency_pass1 g.relation g.operations (reset_valency g.operations g.node)
      = (some n, h)) :
    validate_valency g = ⟨false, { g with node := h }, [Report.twice_in_operations n]⟩ := by
  unfold validate_valency
  dsimp only
  rw [hp]

theorem consistency_of_links (g : Depsgraph) (h : scan_forward g g.operations = none) :
    DEG_debug_consistency_check g
      = ⟨(validate_valency g).ok, (validate_valency g).graph,
          scan_backward g g.operations ++ (validate_valency g).log⟩ := by
  unfold DEG_debug_consistency_check validate_links
  rw [h]

/-! ## The scan over the inlinks -/

theorem scan_inlinks_eq_nil (g : Depsgraph) (node : NodePtr) (l : List RelationPtr)
    (h : ∀ r ∈ l, count_links r (g.node node).inlinks
        = count_links r (g.node (g.relation r).from_).outlinks) :
    scan_inlinks g node l = [] := by
  induction l with
  | nil => rfl
  | cons a l ih =>
    simp only [scan_inlinks, h a (List.mem_cons_self a l), ne_eq, not_true_eq_false, if_false,
      List.nil_append]
    exact ih (fun r hr => h r (List.mem_cons_of_mem a hr))

theorem scan_backward_eq_nil (g : Depsgraph) (ops : List NodePtr)
    (h : ∀ n ∈ ops, ∀ r ∈ (g.node n).inlinks, count_links r (g.node n).inlinks
        = count_links r (g.node (g.relation r).from_).outlinks) :
    scan_backward g ops = [] := by
  induction ops with
  | nil => rfl
  | cons a l ih =>
    simp only [scan_backward]
    rw [scan_inlinks_eq_nil g a _ (h a (List.mem_cons_self a l)),
      ih (fun n hn => h n (List.mem_cons_of_mem a hn))]
    rfl

theorem chain3_mirrored : Mirrored chain3 := by
  intro r
  by_cases h : r = 0 <;> simp [chain3, h]

theorem chain3_out_placed : OutPlaced chain3 := by
  intro n r hr
  rcases n with _ | _ | _ | n <;> simp [chain3, bare] at hr ⊢ <;> simp [hr]

theorem chain3_in_placed : InPlaced chain3 := by
  intro n r hr
  rcases n with _ | _ | _ | n <;> simp [chain3, bare] at hr ⊢ <;> simp [hr]

theorem valency_pass1_pending_of_no_outlinks (relation : RelationPtr → Relation)
    (l : List NodePtr) (h : NodeHeap) (hno : ∀ p, (h p).outlinks = []) (p : NodePtr) :
    ((valency_pass1 relation l h).2 p).num_links_pending = (h p).num_links_pending := by
  induction l generalizing h with
  | nil => rfl
  | cons a l ih =>
    simp only [valency_pass1]
    split
    · rfl
    · rw [hno a]
      simp only [count_outgoing]
      rw [ih]
      · unfold store
        by_cases hp : p = a
        · subst hp; simp
        · simp [hp]
      · intro q
        unfold store
        by_cases hq : q = a
        · subst hq; simpa using hno q
        · simpa [hq] using hno q

/-! ## Statistics -/

theorem stats_component_eq (h : NodeHeap) (comp_node : ComponentNode) (c : Nat) :
    stats_component h (c % WRAP64) comp_node = (c + component_relations h comp_node) % WRAP64 := by
  unfold stats_component component_relations
  induction comp_node.operations generalizing c with
  | nil => simp
  | cons a l ih =>
    simp only [List.foldl_cons, List.map_cons, List.sum_cons, Nat.mod_add_mod]
    rw [ih, Nat.add_assoc]

theorem stats_components_eq (h : NodeHeap) (comps : List ComponentNode) (o r : Nat) :
    comps.foldl
        (fun tot comp_node => ((tot.1 + 1) % WRAP64, stats_component h tot.2 comp_node))
        (o % WRAP64, r % WRAP64)
      = ((o + comps.length) % WRAP64, (r + (comps.map (component_relations h)).sum) % WRAP64) := by
  induction comps generalizing o r with
  | nil => simp
  | cons a l ih =>
    simp only [List.foldl_cons, List.map_cons, List.sum_cons, List.length_cons,
      Nat.mod_add_mod, stats_component_eq]
    rw [ih]
    congr 2 <;> omega

theorem stats_id_node_eq (h : NodeHeap) (id_node : IDNode) (o r : Nat) :
    stats_id_node h (o % WRAP64, r % WRAP64) id_node
      = ((o + 1 + id_node.components.length) % WRAP64,
          (r + id_node_relations h id_node) % WRAP64) := by
  unfold stats_id_node id_node_relations
  simp only [Nat.mod_add_mod]
  rw [stats_components_eq]

theorem stats_id_nodes_eq (h : NodeHeap) (ids : List IDNode) (o r : Nat) :
    ids.foldl (stats_id_node h) (o % WRAP64, r % WRAP64)
      = ((o + (ids.length + (ids.map (fun id_node => id_node.components.length)).sum)) % WRAP64,
          (r + (ids.map (id_node_relations h)).sum) % WRAP64) := by
  induction ids generalizing o r with
  | nil => simp
  | cons a l ih =>
    simp only [List.foldl_cons, List.map_cons, List.sum_cons, List.length_cons,
      stats_id_node_eq]
    rw [ih]
    congr 2 <;> omega

theorem stats_totals_eq (g : Depsgraph) :
    stats_totals g = (outer_count g % WRAP64, relation_count g % WRAP64) := by
  have h := stats_id_nodes_eq g.node g.id_nodes 0 0
  simp only [Nat.zero_mod, Nat.zero_add] at h
  unfold stats_totals outer_count relation_count
  rw [h]
  cases g.time_source with
  | none => simp
  | some ts => simp [Nat.mod_add_mod]

/-! ## Nodes the valency passes do not write -/

theorem count_outgoing_of_not_operation (relation : RelationPtr → Relation)
    (l : List RelationPtr) (h : NodeHeap) (p : NodePtr)
    (hp : (h p).type ≠ NodeType.OPERATION) : count_outgoing relation l h p = h p := by
  induction l generalizing h with
  | nil => rfl
  | cons a l ih =>
    simp only [count_outgoing]
    split
    · rename_i hd
      have hpd : p ≠ (relation a).to_ := fun e => hp (e ▸ hd)
      have hst : ∀ v, store h (relation a).to_ v p = h p := fun v => by simp [store, hpd]
      rw [ih _ (by rw [hst]; exact hp), hst]
    · exact ih h hp

theorem valency_pass1_flags_of_not_mem (relation : RelationPtr → Relation)
    (l : List NodePtr) (h : NodeHeap) (p : NodePtr) (hp : p ∉ l) :
    ((valency_pass1 relation l h).2 p).custom_flags = (h p).custom_flags := by
  induction l generalizing h with
  | nil => rfl
  | cons a l ih =>
    have hpa : p ≠ a := fun e => hp (e ▸ List.mem_cons_self a l)
    have hpl : p ∉ l := fun e => hp (List.mem_cons_of_mem a e)
    simp only [valency_pass1]
    split
    · rfl
    · rw [ih _ hpl]
      simp [store, hpa, count_outgoing_flags]

theorem valency_pass1_of_not_operation (relation : RelationPtr → Relation)
    (l : List NodePtr) (h : NodeHeap) (p : NodePtr) (hp : p ∉ l)
    (ht : (h p).type ≠ NodeType.OPERATION) : (valency_pass1 relation l h).2 p = h p := by
  induction l generalizing h with
  | nil => rfl
  | cons a l ih =>
    have hpa : p ≠ a := fun e => hp (e ▸ List.mem_cons_self a l)
    have hpl : p ∉ l := fun e => hp (List.mem_cons_of_mem a e)
    simp only [valency_pass1]
    split
    · rfl
    · have hst : ∀ v, store (count_outgoing relation (h a).outlinks h) a v p = h p :=
        fun v => by simp [store, hpa, count_outgoing_of_not_operation relation _ h p ht]
      rw [ih _ hpl (by rw [hst]; exact ht), hst]

theorem validate_valency_fields (g : Depsgraph) :
    (validate_valency g).graph.operations = g.operations ∧
      (validate_valency g).graph.relation = g.relation ∧
      (validate_valency g).graph.id_nodes = g.id_nodes ∧
      (validate_valency g).graph.time_source = g.time_source := by
  rw [validate_valency_graph]
  exact ⟨rfl, rfl, rfl, rfl⟩

/-! ## Independence of the initial scratch values -/

theorem scan_outlinks_congr (g1 g2 : Depsgraph) (hr : g2.relation = g1.relation)
    (hs : SameLinks g1.node g2.node) (node : NodePtr) (l : List RelationPtr) :
    scan_outlinks g2 node l = scan_outlinks g1 node l := by
  induction l with
  | nil => rfl
  | cons a l ih =>
    simp only [scan_outlinks, hr, (hs _).2.1, (hs _).2.2, ih]

theorem scan_forward_congr (g1 g2 : Depsgraph) (hr : g2.relation = g1.relation)
    (hs : SameLinks g1.node g2.node) (ops : List NodePtr) :
    scan_forward g2 ops = scan_forward g1 ops := by
  induction ops with
  | nil => rfl
  | cons a l ih =>
    simp only [scan_forward, scan_outlinks_congr g1 g2 hr hs, (hs _).2.2, ih]

theorem scan_inlinks_congr (g1 g2 : Depsgraph) (hr : g2.relation = g1.relation)
    (hs : SameLinks g1.node g2.node) (node : NodePtr) (l : List RelationPtr) :
    scan_inlinks g2 node l = scan_inlinks g1 node l := by
  induction l with
  | nil => rfl
  | cons a l ih =>
    simp only [scan_inlinks, hr, (hs _).2.1, (hs _).2.2, ih]

theorem scan_backward_congr (g1 g2 : Depsgraph) (hr : g2.relation = g1.relation)
    (hs : SameLinks g1.node g2.node) (ops : List NodePtr) :
    scan_backward g2 ops = scan_backward g1 ops := by
  induction ops with
  | nil => rfl
  | cons a l ih =>
    simp only [scan_backward, scan_inlinks_congr g1 g2 hr hs, (hs _).2.1, ih]

theorem reset_valency_congr (g1 g2 : Depsgraph) (h : SameButScratch g1 g2) :
    reset_valency g2.operations g2.node = reset_valency g1.operations g1.node := by
  obtain ⟨-, hops, -, -, hs, hrest⟩ := h
  funext p
  rw [reset_valency_apply, reset_valency_apply, hops]
  by_cases hp : p ∈ g1.operations
  · simp only [hp, if_true, (hs p).1, (hs p).2.1, (hs p).2.2]
  · simp only [hp, if_false, hrest p hp]

theorem validate_valency_congr (g1 g2 : Depsgraph) (h : SameButScratch g1 g2) :
    validate_valency g2 = validate_valency g1 := by
  have hreset := reset_valency_congr g1 g2 h
  obtain ⟨hr, hops, hids, hts, -, -⟩ := h
  rcases g1 with ⟨n1, r1, o1, i1, t1⟩
  rcases g2 with ⟨n2, r2, o2, i2, t2⟩
  simp only at hr hops hids hts hreset
  subst hr hops hids hts
  unfold validate_valency
  simp only [hreset]

theorem validate_links_congr (g1 g2 : Depsgraph) (h : SameButScratch g1 g2) :
    validate_links g2 = validate_links g1 := by
  obtain ⟨hr, hops, -, -, hs, -⟩ := h
  unfold validate_links
  rw [hops, scan_forward_congr g1 g2 hr hs, scan_backward_congr g1 g2 hr hs]

theorem stray_outlink_stale_same : SameButScratch stray_outlink stray_outlink_stale := by
  refine ⟨rfl, rfl, rfl, rfl, sameLinks_store _ _ _ rfl rfl rfl, ?_⟩
  intro p hp
  have hp0 : p ≠ 0 := fun e => hp (by rw [e]; decide)
  simp [stray_outlink_stale, store, hp0]

theorem chain3_stale_same : SameButScratch chain3 chain3_stale := by
  refine ⟨rfl, rfl, rfl, rfl, sameLinks_store _ _ _ rfl rfl rfl, ?_⟩
  intro p hp
  have hp1 : p ≠ 1 := fun e => hp (by rw [e]; decide)
  simp [chain3_stale, store, hp1]

/-! ## What pass 1 accumulates -/

theorem count_outgoing_pending (g : Depsgraph) (m : NodePtr) (l : List RelationPtr)
    (h : NodeHeap) (hs : SameLinks g.node h) (hm : (h m).num_links_pending < WRAP32) :
    (count_outgoing g.relation l h m).num_links_pending
      = ((h m).num_links_pending + entries_into g m l) % WRAP32 := by
  induction l generalizing h with
  | nil =>
    simp only [count_outgoing, entries_into, List.countP_nil, Nat.add_zero]
    exact (Nat.mod_eq_of_lt hm).symm
  | cons r l ih =>
    simp only [count_outgoing]
    split
    · rename_i hd
      have hs' : SameLinks g.node (store h (g.relation r).to_
          { h (g.relation r).to_ with
            num_links_pending := ((h (g.relation r).to_).num_links_pending + 1) % WRAP32 }) :=
        hs.trans (sameLinks_store h _ _ rfl rfl rfl)
      by_cases hmd : m = (g.relation r).to_
      · subst hmd
        rw [ih _ hs' (by simp only [store, if_true]; exact Nat.mod_lt _ (by unfold WRAP32; omega))]
        have hty : (g.node (g.relation r).to_).type = NodeType.OPERATION := by
          rw [← (hs _).1]; exact hd
        simp only [store, if_true, entries_into, List.countP_cons, hty, and_self, decide_True]
        unfold WRAP32
        omega
      · have hne : ¬ (g.relation r).to_ = m := fun e => hmd e.symm
        rw [ih _ hs' (by simp only [store, hmd, if_false]; exact hm)]
        simp [store, hmd, entries_into, List.countP_cons, hne]
    · rename_i hd
      rw [ih h hs hm]
      have hno : ¬ ((g.relation r).to_ = m ∧ (g.node m).type = NodeType.OPERATION) := by
        rintro ⟨e, ht⟩
        apply hd
        rw [(hs _).1, e]
        exact ht
      simp [entries_into, List.countP_cons, hno]

theorem valency_pass1_pending (g : Depsgraph) (m : NodePtr) (l : List NodePtr) (h : NodeHeap)
    (hs : SameLinks g.node h) (hm : (h m).num_links_pending < WRAP32)
    (hnone : (valency_pass1 g.relation l h).1 = none) :
    ((valency_pass1 g.relation l h).2 m).num_links_pending
      = ((h m).num_links_pending + incoming_count g l m) % WRAP32 := by
  induction l generalizing h with
  | nil =>
    simp only [valency_pass1, incoming_count, List.map_nil, List.sum_nil, Nat.add_zero]
    exact (Nat.mod_eq_of_lt hm).symm
  | cons a l ih =>
    simp only [valency_pass1] at hnone ⊢
    split at hnone
    · simp at hnone
    · rename_i hf
      simp only [hf, if_false]
      have hco := count_outgoing_pending g m (h a).outlinks h hs hm
      have hs1 : SameLinks g.node (count_outgoing g.relation (h a).outlinks h) :=
        hs.trans (sameLinks_count_outgoing _ _ _)
      have hs2 : SameLinks g.node (store (count_outgoing g.relation (h a).outlinks h) a
          { count_outgoing g.relation (h a).outlinks h a with custom_flags := 1 }) :=
        hs1.trans (sameLinks_store _ _ _ rfl rfl rfl)
      have hpend : (store (count_outgoing g.relation (h a).outlinks h) a
          { count_outgoing g.relation (h a).outlinks h a with custom_flags := 1 }
            m).num_links_pending
          = (count_outgoing g.relation (h a).outlinks h m).num_links_pending := by
        unfold store
        by_cases hma : m = a
        · subst hma; simp
        · simp [hma]
      rw [ih _ hs2 (by rw [hpend, hco]; exact Nat.mod_lt _ (by unfold WRAP32; omega)) hnone,
        hpend, hco, (hs a).2.2]
      simp only [incoming_count, List.map_cons, List.sum_cons]
      unfold WRAP32
      omega

/-- When the operations list has no repetition, pass 1 leaves in every node `m` of the
list the number of outlinks entries into `m`, modulo `2 ^ 32`. -/
theorem pending_after_pass1 (g : Depsgraph) (hnd : g.operations.Nodup) (m : NodePtr)
    (hm : m ∈ g.operations) :
    ((valency_pass1 g.relation g.operations
        (reset_valency g.operations g.node)).2 m).num_links_pending
      = incoming_count g g.operations m % WRAP32 := by
  have hz : ∀ p ∈ g.operations, (reset_valency g.operations g.node p).custom_flags = 0 := by
    intro p hp
    rw [reset_valency_apply]
    simp [hp]
  have h0 : (reset_valency g.operations g.node m).num_links_pending = 0 := by
    rw [reset_valency_apply]
    simp [hm]
  rw [valency_pass1_pending g m _ _ (sameLinks_reset _ _) (by rw [h0]; unfold WRAP32; omega)
    (valency_pass1_nodup g.relation _ _ hz hnd).1, h0, Nat.zero_add]

theorem valency_pass1_none_iff (g : Depsgraph) :
    (valency_pass1 g.relation g.operations (reset_valency g.operations g.node)).1 = none
      ↔ g.operations.Nodup := by
  have hz : ∀ p ∈ g.operations, (reset_valency g.operations g.node p).custom_flags = 0 := by
    intro p hp
    rw [reset_valency_apply]
    simp [hp]
  constructor
  · intro hnone
    by_contra hdup
    obtain ⟨pre, n, post, e, hnd, hn⟩ := exists_first_repeat g.operations hdup
    have hz' : ∀ p ∈ pre, (reset_valency g.operations g.node p).custom_flags = 0 :=
      fun p hp => hz p (by rw [e]; exact List.mem_append_left _ hp)
    obtain ⟨h1, h2⟩ := valency_pass1_nodup g.relation pre _ hz' hnd
    have hflag := h2 n
    simp only [hn, if_true] at hflag
    generalize reset_valency g.operations g.node = h0 at h1 hflag hnone
    rw [e, valency_pass1_append _ _ _ _ h1] at hnone
    simp [valency_pass1, hflag] at hnone
  · intro hnd
    exact (valency_pass1_nodup g.relation _ _ hz hnd).1

/-- The result of the check in terms of the graph, with the 32-bit counters as they are:
no hypothesis on sizes. -/
theorem consistency_ok_iff_mod (g : Depsgraph) :
    (DEG_debug_consistency_check g).ok = true ↔
      (∀ n ∈ g.operations, ∀ r ∈ (g.node n).outlinks,
        (g.node n).outlinks.count r % WRAP32
          = (g.node (g.relation r).to_).inlinks.count r % WRAP32) ∧
      g.operations.Nodup ∧
      (∀ m ∈ g.operations, incoming_count g g.operations m % WRAP32
        = operation_sources g (g.node m).inlinks % WRAP32) := by
  rw [consistency_ok_iff, validate_valency_ok, scan_forward_eq_none, valency_pass1_none_iff,
    valency_pass2_eq_none]
  have hsame : SameLinks g.node
      (valency_pass1 g.relation g.operations (reset_valency g.operations g.node)).2 :=
    (sameLinks_reset _ _).trans (sameLinks_pass1 _ _ _)
  constructor
  · rintro ⟨hf, hnd, hp⟩
    refine ⟨fun n hn r hr => ?_, hnd, fun m hm => ?_⟩
    · have := hf n hn r hr
      rwa [count_links_eq, count_links_eq] at this
    · have := hp m hm
      rwa [pending_after_pass1 g hnd m hm, count_operation_inlinks_eq g _ hsame,
        (hsame m).2.1] at this
  · rintro ⟨hf, hnd, hp⟩
    refine ⟨fun n hn r hr => ?_, hnd, fun m hm => ?_⟩
    · rw [count_links_eq, count_links_eq]
      exact hf n hn r hr
    · rw [pending_after_pass1 g hnd m hm, count_operation_inlinks_eq g _ hsame, (hsame m).2.1]
      exact hp m hm

theorem chain3_pending : PendingFits chain3 := by
  unfold PendingFits
  decide

/-! ## Counting outlinks entries against inlinks entries -/

theorem countP_key_mem_cons {α : Type} (f : α → Nat) (I : List α) (b : Nat) (L : List Nat)
    (hb : b ∉ L) :
    I.countP (fun r => decide (f r = b)) + I.countP (fun r => decide (f r ∈ L))
      = I.countP (fun r => decide (f r ∈ b :: L)) := by
  induction I with
  | nil => rfl
  | cons r t ih =>
    simp only [List.mem_cons] at ih ⊢
    simp only [List.countP_cons, ← ih]
    by_cases h1 : f r = b
    · have h2 : f r ∉ L := fun e => hb (h1 ▸ e)
      simp only [h1, true_or, decide_True, if_true]
      simp only [h1] at h2
      simp only [h2, decide_False, Bool.false_eq_true, if_false]
      omega
    · by_cases h2 : f r ∈ L
      · simp only [h1, h2, or_true, decide_True, decide_False, if_true, Bool.false_eq_true,
          if_false]
        omega
      · simp only [h1, h2, or_self, decide_False, Bool.false_eq_true, if_false]
        omega

/-- Over a list of keys without repetition, the entries with each key add up to the
entries whose key is in the list. -/
theorem sum_countP_key {α : Type} (f : α → Nat) (I : List α) (L : List Nat) (hnd : L.Nodup) :
    (L.map (fun n => I.countP (fun r => decide (f r = n)))).sum
      = I.countP (fun r => decide (f r ∈ L)) := by
  induction L with
  | nil => simp
  | cons b L ih =>
    obtain ⟨hb, hnd'⟩ := List.nodup_cons.1 hnd
    simp only [List.map_cons, List.sum_cons]
    rw [ih hnd', countP_key_mem_cons f I b L hb]

/-- The outlinks entries of `n` into `m` are at most the inlinks entries of `m` from `n`,
when the relations `n` lists have `n` as source and are matched in their destinations. -/
theorem entries_into_le (g : Depsgraph) (m n : NodePtr)
    (hplaced : ∀ r ∈ (g.node n).outlinks, (g.relation r).from_ = n)
    (hmatch : ∀ r ∈ (g.node n).outlinks,
      (g.node n).outlinks.count r = (g.node (g.relation r).to_).inlinks.count r) :
    entries_into g m (g.node n).outlinks
      ≤ (g.node m).inlinks.countP (fun r => decide ((g.relation r).from_ = n)) := by
  have hsub : ((g.node n).outlinks.filter (fun r => decide ((g.relation r).to_ = m))).Subperm
      ((g.node m).inlinks.filter (fun r => decide ((g.relation r).from_ = n))) := by
    rw [List.subperm_ext_iff]
    intro r hr
    obtain ⟨hr1, hr2⟩ := List.mem_filter.1 hr
    have hto : (g.relation r).to_ = m := of_decide_eq_true hr2
    rw [List.count_filter (p := fun r => decide ((g.relation r).to_ = m)) hr2,
      List.count_filter (p := fun r => decide ((g.relation r).from_ = n))
        (by simpa using hplaced r hr1),
      hmatch r hr1, hto]
  have hlen := hsub.length_le
  rw [← List.countP_eq_length_filter, ← List.countP_eq_length_filter] at hlen
  refine le_trans ?_ hlen
  unfold entries_into
  exact List.countP_mono_left (fun r _ hp => by
    simp only [decide_eq_true_eq] at hp ⊢
    exact hp.1)

/-- Over nodes without repetition that are placed and matched, the outlinks entries into
`m` are at most the inlinks entries of `m` whose source is one of these nodes. -/
theorem incoming_count_le (g : Depsgraph) (m : NodePtr) (L : List NodePtr) (hnd : L.Nodup)
    (hplaced : ∀ n ∈ L, ∀ r ∈ (g.node n).outlinks, (g.relation r).from_ = n)
    (hmatch : ∀ n ∈ L, ∀ r ∈ (g.node n).outlinks,
      (g.node n).outlinks.count r = (g.node (g.relation r).to_).inlinks.count r) :
    incoming_count g L m
      ≤ (g.node m).inlinks.countP (fun r => decide ((g.relation r).from_ ∈ L)) := by
  rw [← sum_countP_key (fun r => (g.relation r).from_) _ L hnd]
  unfold incoming_count
  exact List.sum_le_sum (fun n hn => entries_into_le g m n (hplaced n hn) (hmatch n hn))

theorem incoming_count_le_length (g : Depsgraph) (m : NodePtr) (L : List NodePtr)
    (hnd : L.Nodup)
    (hplaced : ∀ n ∈ L, ∀ r ∈ (g.node n).outlinks, (g.relation r).from_ = n)
    (hmatch : ∀ n ∈ L, ∀ r ∈ (g.node n).outlinks,
      (g.node n).outlinks.count r = (g.node (g.relation r).to_).inlinks.count r) :
    incoming_count g L m ≤ (g.node m).inlinks.length :=
  le_trans (incoming_count_le g m L hnd hplaced hmatch) (List.countP_le_length _)

/-! ## The bound assertion of pass 1 -/

theorem entries_into_cons (g : Depsgraph) (m : NodePtr) (r : RelationPtr)
    (l : List RelationPtr) :
    entries_into g m (r :: l) = entries_into g m l
      + (if (g.relation r).to_ = m ∧ (g.node m).type = NodeType.OPERATION then 1 else 0) := by
  unfold entries_into
  rw [List.countP_cons]
  by_cases h : (g.relation r).to_ = m ∧ (g.node m).type = NodeType.OPERATION <;> simp [h]

theorem incoming_count_append (g : Depsgraph) (m : NodePtr) (P : List NodePtr) (a : NodePtr) :
    incoming_count g (P ++ [a]) m
      = incoming_count g P m + entries_into g m (g.node a).outlinks := by
  simp [incoming_count]

/-- The loop over the outlinks of one node: if every listed node `m` holds at most `c m`
and `c m` plus the entries still to come is within `m`'s inlinks, the assertion holds
before every increment and the loop ends within `c m` plus the entries it went through. -/
theorem assert_outgoing_of_bound (g : Depsgraph) (O : List NodePtr) (es : List RelationPtr)
    (c : NodePtr → Nat) (h : NodeHeap) (hs : SameLinks g.node h)
    (hinv : ∀ m ∈ O, (h m).num_links_pending ≤ c m)
    (hbound : ∀ m ∈ O, c m + entries_into g m es ≤ (g.node m).inlinks.length)
    (hdst : ∀ r ∈ es, (g.node (g.relation r).to_).type = NodeType.OPERATION →
      (g.relation r).to_ ∈ O) :
    assert_outgoing g.relation es h = true ∧
      ∀ m ∈ O, (count_outgoing g.relation es h m).num_links_pending
        ≤ c m + entries_into g m es := by
  induction es generalizing c h with
  | nil =>
    refine ⟨rfl, fun m hm => ?_⟩
    simpa [count_outgoing, entries_into] using hinv m hm
  | cons r es ih =>
    have hdst' : ∀ r' ∈ es, (g.node (g.relation r').to_).type = NodeType.OPERATION →
        (g.relation r').to_ ∈ O := fun r' hr' => hdst r' (List.mem_cons_of_mem r hr')
    simp only [assert_outgoing, count_outgoing]
    by_cases hd : (h (g.relation r).to_).type = NodeType.OPERATION
    · have hty : (g.node (g.relation r).to_).type = NodeType.OPERATION := by
        rw [← (hs _).1]; exact hd
      have hdO : (g.relation r).to_ ∈ O := hdst r (List.mem_cons_self r es) hty
      have hb := hbound _ hdO
      rw [entries_into_cons] at hb
      simp only [hty, and_self, if_true] at hb
      have hlt : (h (g.relation r).to_).num_links_pending
          < (h (g.relation r).to_).inlinks.length := by
        rw [(hs _).2.1]
        have := hinv _ hdO
        omega
      simp only [if_pos hd, hlt, decide_True, Bool.true_and]
      have hs' : SameLinks g.node (store h (g.relation r).to_
          { h (g.relation r).to_ with
            num_links_pending := ((h (g.relation r).to_).num_links_pending + 1) % WRAP32 }) :=
        hs.trans (sameLinks_store h _ _ rfl rfl rfl)
      have key := ih
        (fun m => c m
          + (if (g.relation r).to_ = m ∧ (g.node m).type = NodeType.OPERATION then 1 else 0))
        _ hs'
        (by
          intro m hm
          dsimp only
          have := hinv m hm
          by_cases hmd : m = (g.relation r).to_
          · subst hmd
            simp only [store, if_true, hty, and_self]
            have hmod : ((h (g.relation r).to_).num_links_pending + 1) % WRAP32
                ≤ (h (g.relation r).to_).num_links_pending + 1 := Nat.mod_le _ _
            omega
          · simp only [store, hmd, if_false]
            omega)
        (by
          intro m hm
          dsimp only
          have := hbound m hm
          rw [entries_into_cons] at this
          omega)
        hdst'
      dsimp only at key
      refine ⟨key.1, fun m hm => ?_⟩
      have := key.2 m hm
      rw [entries_into_cons]
      omega
    · simp only [if_neg hd]
      have key := ih c h hs hinv
        (by
          intro m hm
          have := hbound m hm
          rw [entries_into_cons] at this
          omega)
        hdst'
      refine ⟨key.1, fun m hm => ?_⟩
      have := key.2 m hm
      rw [entries_into_cons]
      omega

/-- Pass 1 from a state in which the nodes of `P`, without repetition, have been visited:
the assertion holds before every increment and every listed node ends within the size of
its inlinks. -/
theorem assert_pass1_of_bound (g : Depsgraph) (O : List NodePtr) (hplaced : OutPlaced g)
    (l P : List NodePtr) (h : NodeHeap) (hnd : P.Nodup)
    (hmatch : ∀ n ∈ P ++ l, ∀ r ∈ (g.node n).outlinks,
      (g.node n).outlinks.count r = (g.node (g.relation r).to_).inlinks.count r)
    (hdst : ∀ n ∈ l, ∀ r ∈ (g.node n).outlinks,
      (g.node (g.relation r).to_).type = NodeType.OPERATION → (g.relation r).to_ ∈ O)
    (hs : SameLinks g.node h) (hflag : ∀ p ∈ P, (h p).custom_flags ≠ 0)
    (hinv : ∀ m ∈ O, (h m).num_links_pending ≤ incoming_count g P m) :
    assert_pass1 g.relation l h = true ∧
      ∀ m ∈ O, ((valency_pass1 g.relation l h).2 m).num_links_pending
        ≤ (g.node m).inlinks.length := by
  have hfinal : ∀ m ∈ O, (h m).num_links_pending ≤ (g.node m).inlinks.length :=
    fun m hm => le_trans (hinv m hm)
      (incoming_count_le_length g m P hnd (fun n _ => hplaced n)
        (fun n hn => hmatch n (List.mem_append_left l hn)))
  induction l generalizing P h with
  | nil => exact ⟨rfl, hfinal⟩
  | cons a l ih =>
    simp only [assert_pass1, valency_pass1]
    by_cases hf : (h a).custom_flags ≠ 0
    · simp only [if_pos hf]
      exact ⟨trivial, hfinal⟩
    · simp only [if_neg hf]
      have haP : a ∉ P := fun e => hf (hflag a e)
      have hnd' : (P ++ [a]).Nodup := by
        rw [List.nodup_append]
        exact ⟨hnd, List.nodup_singleton a, by
          intro x hx hx'
          rw [List.mem_singleton] at hx'
          exact haP (hx' ▸ hx)⟩
      have hmatch' : ∀ n ∈ (P ++ [a]) ++ l, ∀ r ∈ (g.node n).outlinks,
          (g.node n).outlinks.count r = (g.node (g.relation r).to_).inlinks.count r := by
        intro n hn
        apply hmatch n
        simpa using hn
      have hbound : ∀ m ∈ O, incoming_count g P m + entries_into g m (h a).outlinks
          ≤ (g.node m).inlinks.length := by
        intro m _
        rw [(hs a).2.2, ← incoming_count_append]
        exact incoming_count_le_length g m (P ++ [a]) hnd' (fun n _ => hplaced n)
          (fun n hn => hmatch' n (List.mem_append_left l hn))
      have hinner := assert_outgoing_of_bound g O (h a).outlinks (incoming_count g P) h hs hinv
        hbound (by
          rw [(hs a).2.2]
          exact hdst a (List.mem_cons_self a l))
      have hs1 : SameLinks g.node (count_outgoing g.relation (h a).outlinks h) :=
        hs.trans (sameLinks_count_outgoing _ _ _)
      have hs2 : SameLinks g.node (store (count_outgoing g.relation (h a).outlinks h) a
          { count_outgoing g.relation (h a).outlinks h a with custom_flags := 1 }) :=
        hs1.trans (sameLinks_store _ _ _ rfl rfl rfl)
      have hpend : ∀ m, (store (count_outgoing g.relation (h a).outlinks h) a
          { count_outgoing g.relation (h a).outlinks h a with custom_flags := 1 }
            m).num_links_pending
          = (count_outgoing g.relation (h a).outlinks h m).num_links_pending := by
        intro m
        unfold store
        by_cases hma : m = a
        · subst hma; simp
        · simp [hma]
      have hflag' : ∀ p ∈ P ++ [a], (store (count_outgoing g.relation (h a).outlinks h) a
          { count_outgoing g.relation (h a).outlinks h a with custom_flags := 1 }
            p).custom_flags ≠ 0 := by
        intro p hp
        by_cases hpa : p = a
        · subst hpa; simp [store]
        · have hpP : p ∈ P := by
            rcases List.mem_append.1 hp with h1 | h1
            · exact h1
            · exact absurd (List.mem_singleton.1 h1) hpa
          simp only [store, hpa, if_false, count_outgoing_flags]
          exact hflag p hpP
      have hinv' : ∀ m ∈ O, (store (count_outgoing g.relation (h a).outlinks h) a
          { count_outgoing g.relation (h a).outlinks h a with custom_flags := 1 }
            m).num_links_pending ≤ incoming_count g (P ++ [a]) m := by
        intro m hm
        rw [hpend, incoming_count_append, ← (hs a).2.2]
        exact hinner.2 m hm
      have hrest := ih (P ++ [a]) _ hnd' hmatch'
        (fun n hn => hdst n (List.mem_cons_of_mem a hn)) hs2 hflag' hinv'
        (fun m hm => le_trans (hinv' m hm)
          (incoming_count_le_length g m (P ++ [a]) hnd' (fun n _ => hplaced n)
            (fun n hn => hmatch' n (List.mem_append_left l hn))))
      rw [hinner.1]
      exact ⟨by simpa using hrest.1, hrest.2⟩

theorem chain3_destinations : DestinationsListed chain3 := by
  unfold DestinationsListed
  decide

/-! ## Matching outlinks and inlinks entries exactly -/

theorem entries_into_of_operation (g : Depsgraph) (m : NodePtr) (l : List RelationPtr)
    (hm : (g.node m).type = NodeType.OPERATION) :
    entries_into g m l = (l.filter (fun r => decide ((g.relation r).to_ = m))).length := by
  unfold entries_into
  rw [← List.countP_eq_length_filter]
  exact List.countP_congr (fun r _ => by simp [hm])

theorem outlinks_into_subperm (g : Depsgraph) (m n : NodePtr)
    (hplaced : ∀ r ∈ (g.node n).outlinks, (g.relation r).from_ = n)
    (hmatch : ∀ r ∈ (g.node n).outlinks,
      (g.node n).outlinks.count r = (g.node (g.relation r).to_).inlinks.count r) :
    ((g.node n).outlinks.filter (fun r => decide ((g.relation r).to_ = m))).Subperm
      ((g.node m).inlinks.filter (fun r => decide ((g.relation r).from_ = n))) := by
  rw [List.subperm_ext_iff]
  intro r hr
  obtain ⟨hr1, hr2⟩ := List.mem_filter.1 hr
  have hto : (g.relation r).to_ = m := of_decide_eq_true hr2
  rw [List.count_filter (p := fun r => decide ((g.relation r).to_ = m)) hr2,
    List.count_filter (p := fun r => decide ((g.relation r).from_ = n))
      (by simpa using hplaced r hr1),
    hmatch r hr1, hto]

theorem outlinks_into_perm (g : Depsgraph) (hmir : Mirrored g) (hout : OutPlaced g)
    (hin : InPlaced g) (m n : NodePtr) :
    ((g.node n).outlinks.filter (fun r => decide ((g.relation r).to_ = m))).Perm
      ((g.node m).inlinks.filter (fun r => decide ((g.relation r).from_ = n))) := by
  rw [List.perm_iff_count]
  intro r
  by_cases hmem : r ∈ (g.node n).outlinks ∧ (g.relation r).to_ = m
  · obtain ⟨hr, hto⟩ := hmem
    have hfrom := hout n r hr
    rw [List.count_filter (p := fun r => decide ((g.relation r).to_ = m)) (by simpa using hto),
      List.count_filter (p := fun r => decide ((g.relation r).from_ = n))
        (by simpa using hfrom)]
    have := hmir r
    rwa [hfrom, hto] at this
  · have h1 : r ∉ (g.node n).outlinks.filter (fun r => decide ((g.relation r).to_ = m)) := by
      intro e
      obtain ⟨e1, e2⟩ := List.mem_filter.1 e
      exact hmem ⟨e1, of_decide_eq_true e2⟩
    have h2 : r ∉ (g.node m).inlinks.filter (fun r => decide ((g.relation r).from_ = n)) := by
      intro e
      obtain ⟨e1, e2⟩ := List.mem_filter.1 e
      have hfrom : (g.relation r).from_ = n := of_decide_eq_true e2
      have hto := hin m r e1
      apply hmem
      refine ⟨?_, hto⟩
      have hc := hmir r
      rw [hfrom, hto] at hc
      have hpos : 0 < (g.node m).inlinks.count r := List.count_pos_iff.2 e1
      exact List.count_pos_iff.1 (by omega)
    rw [List.count_eq_zero_of_not_mem h1, List.count_eq_zero_of_not_mem h2]

theorem termwise_eq_of_sum_le (L : List Nat) (f k : Nat → Nat) (hle : ∀ n ∈ L, f n ≤ k n)
    (hsum : (L.map k).sum ≤ (L.map f).sum) : ∀ n ∈ L, f n = k n := by
  induction L with
  | nil => intro n hn; cases hn
  | cons a L ih =>
    simp only [List.map_cons, List.sum_cons] at hsum
    have ha := hle a (List.mem_cons_self a L)
    have hrest : (L.map f).sum ≤ (L.map k).sum :=
      List.sum_le_sum (fun n hn => hle n (List.mem_cons_of_mem a hn))
    intro n hn
    rcases List.mem_cons.1 hn with e | e
    · subst e; omega
    · exact ih (fun n hn => hle n (List.mem_cons_of_mem a hn)) (by omega) n e

theorem forward_exact (g : Depsgraph) (hfit : LinksFitInt g)
    (hscan : scan_forward g g.operations = none) :
    ∀ n ∈ g.operations, ∀ r ∈ (g.node n).outlinks,
      (g.node n).outlinks.count r = (g.node (g.relation r).to_).inlinks.count r := by
  intro n hn r hr
  have h1 := (scan_forward_eq_none g g.operations).1 hscan n hn r hr
  rw [count_links_of_short r _ (lt_trans (hfit n).2 (by unfold WRAP32; omega)),
    count_links_of_short r _ (lt_trans (hfit _).1 (by unfold WRAP32; omega))] at h1
  exact h1

theorem chain3_operation_only : OperationOnly chain3 := by
  intro n r _
  by_cases h : r = 0 <;> simp [chain3, h]

theorem chain3_endpoints : EndpointsListed chain3 := by
  intro n r _
  by_cases h : r = 0 <;> simp [chain3, h]

theorem chain3_typed : OperationsTyped chain3 := by
  unfold OperationsTyped
  decide

/-- On a well-formed graph the count of pass 1 and the count of pass 2 are the same
number for every node of the operations list. -/
theorem incoming_eq_sources (g : Depsgraph) (hnd : g.operations.Nodup) (hmir : Mirrored g)
    (hout : OutPlaced g) (hin : InPlaced g) (hlisted : EndpointsListed g)
    (htyped : OperationsTyped g) (m : NodePtr) (hm : m ∈ g.operations) :
    incoming_count g g.operations m = operation_sources g (g.node m).inlinks := by
  have hterm : ∀ n ∈ g.operations, entries_into g m (g.node n).outlinks
      = (g.node m).inlinks.countP (fun r => decide ((g.relation r).from_ = n)) := by
    intro n _
    rw [entries_into_of_operation g m _ (htyped m hm), List.countP_eq_length_filter]
    exact (outlinks_into_perm g hmir hout hin m n).length_eq
  unfold incoming_count
  rw [List.map_congr_left hterm, sum_countP_key (fun r => (g.relation r).from_) _ _ hnd]
  unfold operation_sources
  apply List.countP_congr
  intro r hr
  simp only [decide_eq_true_eq]
  exact ⟨fun h => htyped _ h, fun h => (hlisted m r (Or.inl hr)).1 h⟩

/-! ## Scanning the bits of a flags value -/

/-- For a nonzero value below `2 ^ fuel`, `lowest_bit` is the position of a set bit below
`fuel`, no bit under it is set, and `a &&& (a - 1)` is `a` without that bit. -/
theorem lowest_bit_spec (fuel a : Nat) (hpos : 0 < a) (hlt : a < 2 ^ fuel) :
    a.testBit (lowest_bit fuel a) = true ∧ lowest_bit fuel a < fuel ∧
      (∀ j, j < lowest_bit fuel a → a.testBit j = false) ∧
      (∀ j, (a &&& (a - 1)).testBit j
        = (a.testBit j && decide (j ≠ lowest_bit fuel a))) := by
  induction fuel generalizing a with
  | zero =>
    simp only [Nat.pow_zero] at hlt
    omega
  | succ n ih =>
    simp only [lowest_bit]
    by_cases hodd : a % 2 = 1
    · simp only [hodd, if_true]
      refine ⟨by simp [hodd], by omega, fun j hj => by omega, fun j => ?_⟩
      cases j with
      | zero =>
        have heven : ¬ (a - 1) % 2 = 1 := by omega
        simp [hodd, heven]
      | succ j =>
        have hhalf : (a - 1) / 2 = a / 2 := by omega
        rw [Nat.testBit_and, Nat.testBit_succ, Nat.testBit_succ, hhalf]
        simp
    · simp only [hodd, if_false]
      have hpos' : 0 < a / 2 := by omega
      have hlt' : a / 2 < 2 ^ n := by
        rw [Nat.pow_succ] at hlt
        omega
      obtain ⟨h1, h2, h3, h4⟩ := ih (a / 2) hpos' hlt'
      refine ⟨by rw [Nat.testBit_succ]; exact h1, by omega, fun j hj => ?_, fun j => ?_⟩
      · cases j with
        | zero => simp [hodd]
        | succ j =>
          rw [Nat.testBit_succ]
          exact h3 j (by omega)
      · cases j with
        | zero => simp [hodd]
        | succ j =>
          have hhalf : (a - 1) / 2 = a / 2 - 1 := by omega
          have := h4 j
          rw [Nat.testBit_and] at this
          rw [Nat.testBit_and, Nat.testBit_succ, Nat.testBit_succ, hhalf, this]
          simp

theorem mem_set_bits (a i : Nat) : i ∈ set_bits a ↔ i < 32 ∧ a.testBit i = true := by
  simp [set_bits]

theorem set_bits_sorted (a : Nat) : (set_bits a).Sorted (· < ·) :=
  (List.sorted_lt_range 32).filter _

/-- The set bits of a nonzero 32-bit value are its lowest set bit followed by the set bits
of the value that `bitscan_forward_clear_uint` leaves. -/
theorem set_bits_scan (a : Nat) (hpos : 0 < a) (hlt : a < 2 ^ 32) :
    set_bits a
      = (bitscan_forward_clear_uint a).1 :: set_bits (bitscan_forward_clear_uint a).2 := by
  obtain ⟨h1, h2, h3, h4⟩ := lowest_bit_spec 32 a hpos hlt
  simp only [bitscan_forward_clear_uint, bitscan_forward_uint]
  have hsorted : (lowest_bit 32 a :: set_bits (a &&& (a - 1))).Sorted (· < ·) := by
    rw [List.sorted_cons]
    refine ⟨fun b hb => ?_, set_bits_sorted _⟩
    rw [mem_set_bits, h4] at hb
    simp only [Bool.and_eq_true, decide_eq_true_eq] at hb
    by_contra hnot
    have hlt' : b < lowest_bit 32 a := by omega
    have := h3 b hlt'
    rw [hb.2.1] at this
    cases this
  apply List.eq_of_perm_of_sorted ?_ (set_bits_sorted a) hsorted
  rw [List.perm_ext_iff_of_nodup (set_bits_sorted a).nodup hsorted.nodup]
  intro x
  rw [List.mem_cons, mem_set_bits, mem_set_bits, h4]
  simp only [Bool.and_eq_true, decide_eq_true_eq]
  constructor
  · rintro ⟨hx, hb⟩
    by_cases hxi : x = lowest_bit 32 a
    · exact Or.inl hxi
    · exact Or.inr ⟨hx, hb, hxi⟩
  · rintro (hxi | ⟨hx, hb, -⟩)
    · subst hxi
      exact ⟨h2, h1⟩
    · exact ⟨hx, hb⟩

theorem set_bits_zero : set_bits 0 = [] := by decide

theorem set_bits_length_le (a : Nat) : (set_bits a).length ≤ 32 := by
  unfold set_bits
  exact le_trans (List.length_filter_le _ _) (by simp)

/-- With as many rounds as `current_flag` has set bits the loop ends, having handled the
single-bit tags of the set bits from the lowest to the highest, one round each. -/
theorem loop_tags_eq (fuel a : Nat) (hlt : a < 2 ^ 32) (hfuel : (set_bits a).length ≤ fuel) :
    loop_tags fuel a = some ((set_bits a).map (fun i => 2 ^ i)) := by
  induction fuel generalizing a with
  | zero =>
    by_cases ha : a = 0
    · subst ha; rfl
    · rw [set_bits_scan a (by omega) hlt] at hfuel
      simp at hfuel
  | succ n ih =>
    by_cases ha : a = 0
    · subst ha; rfl
    · have hscan := set_bits_scan a (by omega) hlt
      have hle : (bitscan_forward_clear_uint a).2 < 2 ^ 32 :=
        lt_of_le_of_lt Nat.and_le_left hlt
      rw [hscan] at hfuel
      simp only [List.length_cons] at hfuel
      simp only [loop_tags, ha, if_false]
      rw [ih _ hle (by omega), hscan]
      simp [Nat.one_shiftLeft]

/-! ## The string built by `DEG_stringify_recalc_flags` -/

theorem stringify_loop_eq (name : Nat → Option String) (fuel a : Nat) (res : String) :
    stringify_loop name fuel a res
      = (loop_tags fuel a).map (fun tags => tags.foldl (stringify_append_bit name) res) := by
  induction fuel generalizing a res with
  | zero =>
    by_cases ha : a = 0 <;> simp [stringify_loop, loop_tags, ha]
  | succ n ih =>
    by_cases ha : a = 0
    · simp [stringify_loop, loop_tags, ha]
    · simp only [stringify_loop, loop_tags, ha, if_false]
      rw [ih]
      cases loop_tags n (bitscan_forward_clear_uint a).2 <;> simp

/-- The loop of `DEG_stringify_recalc_flags` on a 32-bit value: it ends within its 32
rounds and applies `stringify_append_bit` once per set bit, in ascending bit order. -/
theorem stringify_loop_set_bits (name : Nat → Option String) (flags : Nat)
    (hflags : flags < 2 ^ 32) (res : String) :
    stringify_loop name 32 flags res
      = some (((set_bits flags).map (fun i => 2 ^ i)).foldl (stringify_append_bit name) res) := by
  rw [stringify_loop_eq, loop_tags_eq 32 flags hflags (set_bits_length_le flags)]
  rfl

theorem stringify_eq_foldl (name : Nat → Option String) (mask flags : Nat)
    (hflags : flags < 2 ^ 32) (hne : flags ≠ 0) :
    DEG_stringify_recalc_flags name mask flags
      = some ((handled_tags mask flags).foldl (stringify_append_bit name) "") := by
  unfold DEG_stringify_recalc_flags handled_tags
  simp only [hne, if_false]
  rw [stringify_loop_set_bits name flags hflags]
  by_cases hm : flags &&& mask = mask <;> simp [hm]

theorem foldl_append_bit (name : Nat → Option String) (tags : List Nat) (res : String) :
    tags.foldl (stringify_append_bit name) res
      = (tags.filterMap name).foldl append_name res := by
  induction tags generalizing res with
  | nil => rfl
  | cons t tags ih =>
    simp only [List.foldl_cons, List.filterMap_cons]
    cases ht : name t with
    | none =>
      simp only [stringify_append_bit, ht]
      exact ih res
    | some s =>
      simp only [stringify_append_bit, ht, List.foldl_cons]
      exact ih _

theorem append_ne_empty (a b : String) (ha : a ≠ "") : a ++ b ≠ "" := by
  intro h
  apply ha
  rw [String.ext_iff] at h ⊢
  simp only [String.data_append] at h
  exact (List.append_eq_nil.1 h).1

theorem foldl_append_name_go (ns : List String) (acc : String) (hacc : acc ≠ "") :
    ns.foldl append_name acc = String.intercalate.go acc ", " ns := by
  induction ns generalizing acc with
  | nil => rfl
  | cons s ns ih =>
    simp only [List.foldl_cons, String.intercalate.go, append_name, hacc, ne_eq,
      not_false_eq_true, if_true]
    exact ih _ (append_ne_empty _ _ (append_ne_empty _ _ hacc))

/-- Names none of which is empty are put together by `stringify_append_bit` as
`", ".intercalate` joins them. -/
theorem foldl_append_name_eq (ns : List String) (hns : ∀ s ∈ ns, s ≠ "") :
    ns.foldl append_name "" = ", ".intercalate ns := by
  cases ns with
  | nil => rfl
  | cons a ns =>
    have ha : a ≠ "" := hns a (List.mem_cons_self a ns)
    simp only [List.foldl_cons, String.intercalate]
    have hfirst : append_name "" a = a := by simp [append_name]
    rw [hfirst]
    exact foldl_append_name_go ns a ha

theorem mem_set_bits_of_lt (flags i : Nat) (hflags : flags < 2 ^ 32) :
    i ∈ set_bits flags ↔ flags.testBit i = true := by
  rw [mem_set_bits]
  constructor
  · exact fun h => h.2
  · intro h
    refine ⟨?_, h⟩
    by_contra hi
    have hlt : flags < 2 ^ i :=
      lt_of_lt_of_le hflags (Nat.pow_le_pow_right (by omega) (by omega))
    rw [Nat.testBit_lt_two_pow hlt] at h
    cases h

theorem sample_tag_name_ne_empty (tag : Nat) : sample_tag_name tag ≠ some "" := by
  unfold sample_tag_name
  split_ifs <;> simp

theorem append_bit_extends (name : Nat → Option String) (acc : String) (tag : Nat) :
    ∃ u, stringify_append_bit name acc tag = acc ++ u := by
  unfold stringify_append_bit
  cases name tag with
  | none => exact ⟨"", (String.append_empty acc).symm⟩
  | some n =>
    by_cases hacc : acc = ""
    · exact ⟨n, by simp [hacc]⟩
    · exact ⟨", " ++ n, by simp [hacc, String.append_assoc]⟩

/-- The loop body only ever appends: what has been built stays at the front. -/
theorem foldl_append_bit_extends (name : Nat → Option String) (tags : List Nat)
    (acc : String) : ∃ t, tags.foldl (stringify_append_bit name) acc = acc ++ t := by
  induction tags generalizing acc with
  | nil => exact ⟨"", (String.append_empty acc).symm⟩
  | cons tag tags ih =>
    obtain ⟨u, hu⟩ := append_bit_extends name acc tag
    obtain ⟨t, ht⟩ := ih (acc ++ u)
    exact ⟨u ++ t, by rw [List.foldl_cons, hu, ht, String.append_assoc]⟩

/-! ## Claims -/

/-- C1: when `DEG_debug_consistency_check` returns true, every relation listed in the
outlinks of a node of the operations list occurs there exactly as often as it occurs in
the inlinks of its destination (for graphs whose link vectors fit the `int` counters). -/
theorem consistency_true_outlinks_matched (g : Depsgraph) (hfit : LinksFitInt g)
    (h : (DEG_debug_consistency_check g).ok = true) :
    ∀ n ∈ g.operations, ∀ r ∈ (g.node n).outlinks,
      (g.node n).outlinks.count r = (g.node (g.relation r).to_).inlinks.count r := by
  intro n hn r hr
  have hscan := (scan_forward_eq_none g g.operations).1 (consistency_ok_links g h) n hn r hr
  rw [count_links_of_short r _ (lt_trans (hfit n).2 (by unfold WRAP32; omega)),
    count_links_of_short r _ (lt_trans (hfit _).1 (by unfold WRAP32; omega))] at hscan
  exact hscan

theorem consistency_true_outlinks_matched_witness :
    LinksFitInt chain3 ∧ (DEG_debug_consistency_check chain3).ok = true ∧
      ∀ n ∈ chain3.operations, ∀ r ∈ (chain3.node n).outlinks,
        (chain3.node n).outlinks.count r
          = (chain3.node (chain3.relation r).to_).inlinks.count r :=
  ⟨chain3_fits, chain3_ok, consistency_true_outlinks_matched chain3 chain3_fits chain3_ok⟩

/-- C2: when `DEG_debug_consistency_check` returns true, every node of the operations
list ends with `num_links_pending` equal to the number of entries of its inlinks whose
source is an operation node, counted with multiplicity (for graphs whose link vectors
fit the `int` counters); on the chain `A -> B -> C` the check returns true and leaves
`A : 0`, `B : 1`, `C : 1`. -/
theorem consistency_true_pending :
    (∀ g : Depsgraph, LinksFitInt g → (DEG_debug_consistency_check g).ok = true →
      ∀ n ∈ g.operations,
        ((DEG_debug_consistency_check g).graph.node n).num_links_pending
          = operation_sources (DEG_debug_consistency_check g).graph
              ((DEG_debug_consistency_check g).graph.node n).inlinks) ∧
    ((DEG_debug_consistency_check chain3).ok = true ∧
      ((DEG_debug_consistency_check chain3).graph.node 0).num_links_pending = 0 ∧
      ((DEG_debug_consistency_check chain3).graph.node 1).num_links_pending = 1 ∧
      ((DEG_debug_consistency_check chain3).graph.node 2).num_links_pending = 1) := by
  refine ⟨?_, by decide, by decide, by decide, by decide⟩
  intro g hfit hok n hn
  have hsame := sameLinks_consistency g
  rw [operation_sources_congr g _ (consistency_relation g) hsame]
  obtain ⟨hscan, hval⟩ := (consistency_ok_iff g).1 hok
  have hgraph := consistency_graph_of_links g hscan
  have hp2 := (valency_pass2_eq_none _ _ _).1 ((validate_valency_ok g).1 hval).2 n hn
  have hsame1 : SameLinks g.node
      (valency_pass1 g.relation g.operations (reset_valency g.operations g.node)).2 :=
    (sameLinks_reset _ _).trans (sameLinks_pass1 _ _ _)
  rw [count_operation_inlinks_eq g _ hsame1] at hp2
  rw [hgraph, validate_valency_graph]
  dsimp only
  rw [hp2]
  apply Nat.mod_eq_of_lt
  refine lt_of_le_of_lt (List.countP_le_length _) ?_
  rw [(hsame1 n).2.1]
  exact lt_trans (hfit n).1 (by unfold WRAP32; omega)

theorem consistency_true_pending_witness :
    LinksFitInt chain3 ∧ (DEG_debug_consistency_check chain3).ok = true ∧
      ∀ n ∈ chain3.operations,
        ((DEG_debug_consistency_check chain3).graph.node n).num_links_pending
          = operation_sources (DEG_debug_consistency_check chain3).graph
              ((DEG_debug_consistency_check chain3).graph.node n).inlinks :=
  ⟨chain3_fits, chain3_ok, consistency_true_pending.1 chain3 chain3_fits chain3_ok⟩

/-- C3, as stated, fails: in `timed` the removed entry belongs to a relation whose source
is the time source, which the forward scan never visits; in `stray_inlink` the removed
entry sits in the inlinks of a node that is not the relation's destination.  Both graphs
are mirrored, and after the removal the forward scan finds nothing and the link check
does not return false. -/
theorem removed_inlink_undetected :
    (Mirrored timed ∧ 0 < (timed.node 1).inlinks.length ∧
      scan_forward (remove_inlink timed 1 0) (remove_inlink timed 1 0).operations = none ∧
      (validate_links (remove_inlink timed 1 0)).1 = true ∧
      (DEG_debug_consistency_check (remove_inlink timed 1 0)).ok = true) ∧
    (Mirrored stray_inlink ∧ 0 < (stray_inlink.node 2).inlinks.length ∧
      scan_forward (remove_inlink stray_inlink 2 0) (remove_inlink stray_inlink 2 0).operations
        = none ∧
      (validate_links (remove_inlink stray_inlink 2 0)).1 = true) :=
  ⟨⟨fun _ => rfl, by decide, by decide, by decide, by decide⟩,
    ⟨fun _ => rfl, by decide, by decide, by decide⟩⟩

/-- C3, amended: in a mirrored graph, removing from `m`'s inlinks an entry whose relation
has `m` as its destination and a node of the operations list as its source makes the
forward scan over outlinks stop at two counters that differ, so that the link check and
the whole check return false. -/
theorem removed_inlink_detected (g : Depsgraph) (m : NodePtr) (i : Nat) (r : RelationPtr)
    (hmir : Mirrored g) (hr : (g.node m).inlinks[i]? = some r)
    (hto : (g.relation r).to_ = m) (hfrom : (g.relation r).from_ ∈ g.operations) :
    (∃ c : Nat × Nat,
      scan_forward (remove_inlink g m i) (remove_inlink g m i).operations = some c
        ∧ c.1 ≠ c.2) ∧
    (validate_links (remove_inlink g m i)).1 = false ∧
    (DEG_debug_consistency_check (remove_inlink g m i)).ok = false := by
  have hcount := count_eraseIdx_self _ i r hr
  have hm := hmir r
  rw [hto] at hm
  have hne : scan_forward (remove_inlink g m i) (remove_inlink g m i).operations ≠ none := by
    intro hnone
    have hpos : 0 < (g.node (g.relation r).from_).outlinks.count r := by omega
    have hmem : r ∈ ((remove_inlink g m i).node (g.relation r).from_).outlinks := by
      rw [remove_inlink_outlinks]
      exact List.count_pos_iff.1 hpos
    have hrel : (remove_inlink g m i).relation = g.relation := rfl
    have hops : (remove_inlink g m i).operations = g.operations := rfl
    have := (scan_forward_eq_none _ _).1 hnone (g.relation r).from_ (hops ▸ hfrom) r hmem
    rw [hrel, hto, remove_inlink_outlinks, remove_inlink_inlinks, count_links_eq,
      count_links_eq] at this
    unfold WRAP32 at this
    omega
  refine ⟨?_, consistency_not_ok_of_mismatch _ hne⟩
  cases hs : scan_forward (remove_inlink g m i) (remove_inlink g m i).operations with
  | none => exact absurd hs hne
  | some c => exact ⟨c, rfl, scan_forward_some _ _ c hs⟩

theorem removed_inlink_detected_witness :
    (∃ c : Nat × Nat,
      scan_forward (remove_inlink chain3 1 0) (remove_inlink chain3 1 0).operations = some c
        ∧ c.1 ≠ c.2) ∧
    (validate_links (remove_inlink chain3 1 0)).1 = false ∧
    (DEG_debug_consistency_check (remove_inlink chain3 1 0)).ok = false :=
  removed_inlink_detected chain3 1 0 0
    chain3_mirrored (by decide) (by decide) (by decide)

/-- C4: a graph whose operations list holds the same node at two positions is rejected;
when the forward scan passes, pass 1 runs without failure over the part of the list before
the second occurrence of the first repeated node `n`, stops there with the heap as that
part left it (the outlinks of this occurrence are not counted), and the check prints that
`n` is twice in the operations. -/
theorem duplicate_operation_rejected (g : Depsgraph) (hdup : ¬ g.operations.Nodup) :
    (DEG_debug_consistency_check g).ok = false ∧
    (scan_forward g g.operations = none →
      ∃ pre n post, g.operations = pre ++ n :: post ∧ pre.Nodup ∧ n ∈ pre ∧
        (valency_pass1 g.relation pre (reset_valency g.operations g.node)).1 = none ∧
        valency_pass1 g.relation g.operations (reset_valency g.operations g.node)
          = (some n, (valency_pass1 g.relation pre (reset_valency g.operations g.node)).2) ∧
        (DEG_debug_consistency_check g).graph.node
          = (valency_pass1 g.relation pre (reset_valency g.operations g.node)).2 ∧
        (DEG_debug_consistency_check g).log
          = scan_backward g g.operations ++ [Report.twice_in_operations n]) := by
  have key : scan_forward g g.operations = none →
      ∃ pre n post, g.operations = pre ++ n :: post ∧ pre.Nodup ∧ n ∈ pre ∧
        (valency_pass1 g.relation pre (reset_valency g.operations g.node)).1 = none ∧
        valency_pass1 g.relation g.operations (reset_valency g.operations g.node)
          = (some n, (valency_pass1 g.relation pre (reset_valency g.operations g.node)).2) := by
    intro _
    obtain ⟨pre, n, post, e, hnd, hn⟩ := exists_first_repeat g.operations hdup
    have hz : ∀ p ∈ pre, (reset_valency g.operations g.node p).custom_flags = 0 := by
      intro p hp
      have hp' : p ∈ g.operations := by rw [e]; exact List.mem_append_left _ hp
      rw [reset_valency_apply]
      simp [hp']
    obtain ⟨h1, h2⟩ := valency_pass1_nodup g.relation pre _ hz hnd
    refine ⟨pre, n, post, e, hnd, hn, h1, ?_⟩
    have hflag := h2 n
    simp only [hn, if_true] at hflag
    generalize reset_valency g.operations g.node = h0 at h1 hflag ⊢
    rw [e, valency_pass1_append _ _ _ _ h1]
    simp [valency_pass1, hflag]
  constructor
  · by_cases hs : scan_forward g g.operations = none
    · obtain ⟨pre, n, post, -, -, -, -, hp⟩ := key hs
      rw [consistency_of_links g hs, validate_valency_twice g n _ hp]
    · exact (consistency_not_ok_of_mismatch g hs).2
  · intro hs
    obtain ⟨pre, n, post, e, hnd, hn, h1, hp⟩ := key hs
    refine ⟨pre, n, post, e, hnd, hn, h1, hp, ?_, ?_⟩
    · rw [consistency_of_links g hs, validate_valency_twice g n _ hp]
    · rw [consistency_of_links g hs, validate_valency_twice g n _ hp]

theorem duplicate_operation_rejected_witness :
    ¬ twice_listed.operations.Nodup ∧ (DEG_debug_consistency_check twice_listed).ok = false :=
  ⟨by decide, (duplicate_operation_rejected twice_listed (by decide)).1⟩

/-- C5, as stated, fails: both graphs are mirrored in the stated sense, yet in
`stray_outlink` the forward scan returns false on the outlinks of `C`, which lists a
relation of another source twice, and in `stray_inlink` the forward scan passes and the
scan over the inlinks reports a mismatch on `C`. -/
theorem mirrored_links_rejected :
    (Mirrored stray_outlink ∧
      scan_forward stray_outlink stray_outlink.operations = some (2, 1) ∧
      (validate_links stray_outlink).1 = false) ∧
    (Mirrored stray_inlink ∧
      scan_forward stray_inlink stray_inlink.operations = none ∧
      scan_backward stray_inlink stray_inlink.operations
        = [Report.incoming_not_outgoing 2 1, Report.incoming_not_outgoing 2 1]) :=
  ⟨⟨fun _ => rfl, by decide, by decide⟩, ⟨fun _ => rfl, by decide, by decide⟩⟩

/-- C5, amended: in a mirrored graph in which every relation listed in a node's outlinks
has that node as its source and every relation listed in a node's inlinks has that node
as its destination, the forward scan does not return false and the scan over the inlinks
prints nothing, so the link check succeeds silently. -/
theorem mirrored_links_accepted (g : Depsgraph) (hmir : Mirrored g) (hout : OutPlaced g)
    (hin : InPlaced g) :
    scan_forward g g.operations = none ∧ scan_backward g g.operations = [] ∧
      validate_links g = (true, []) := by
  have hf : scan_forward g g.operations = none := by
    rw [scan_forward_eq_none]
    intro n _ r hr
    have := hmir r
    rw [hout n r hr] at this
    rw [count_links_eq, count_links_eq, this]
  have hb : scan_backward g g.operations = [] := by
    apply scan_backward_eq_nil
    intro n _ r hr
    have := hmir r
    rw [hin n r hr] at this
    rw [count_links_eq, count_links_eq, this]
  refine ⟨hf, hb, ?_⟩
  unfold validate_links
  rw [hf, hb]

theorem mirrored_links_accepted_witness :
    scan_forward chain3 chain3.operations = none ∧ scan_backward chain3 chain3.operations = [] ∧
      validate_links chain3 = (true, []) :=
  mirrored_links_accepted chain3 chain3_mirrored chain3_out_placed chain3_in_placed

/-- C6, as stated, fails: `bare_twice` has no relation at all, yet the valency check
returns false, its operations list naming one node twice. -/
theorem no_links_rejected :
    NoLinks bare_twice ∧ (validate_valency bare_twice).ok = false ∧
      (validate_valency bare_twice).log = [Report.twice_in_operations 0] ∧
      (DEG_debug_consistency_check bare_twice).ok = false :=
  ⟨fun _ => ⟨rfl, rfl⟩, by decide, by decide, by decide⟩

/-- C6, amended: on a graph without any inlinks or outlinks entry whose operations list
has no repeated node, the valency check returns true (and so does the whole check), and
afterwards every node of the operations list has `num_links_pending = 0`. -/
theorem no_links_accepted (g : Depsgraph) (hno : NoLinks g) (hnd : g.operations.Nodup) :
    (validate_valency g).ok = true ∧
      (∀ n ∈ g.operations, ((validate_valency g).graph.node n).num_links_pending = 0) ∧
      (DEG_debug_consistency_check g).ok = true := by
  have hz : ∀ p ∈ g.operations, (reset_valency g.operations g.node p).custom_flags = 0 := by
    intro p hp
    rw [reset_valency_apply]
    simp [hp]
  have hout : ∀ p, (reset_valency g.operations g.node p).outlinks = [] := fun p =>
    ((sameLinks_reset g.operations g.node p).2.2).trans (hno p).2
  have hpend : ∀ n ∈ g.operations,
      ((valency_pass1 g.relation g.operations (reset_valency g.operations g.node)).2
        n).num_links_pending = 0 := by
    intro n hn
    rw [valency_pass1_pending_of_no_outlinks _ _ _ hout, reset_valency_apply]
    simp [hn]
  have hok : (validate_valency g).ok = true := by
    rw [validate_valency_ok]
    refine ⟨(valency_pass1_nodup g.relation _ _ hz hnd).1, ?_⟩
    rw [valency_pass2_eq_none]
    intro n hn
    have hin := ((sameLinks_reset g.operations g.node).trans
      (sameLinks_pass1 g.relation g.operations _) n).2.1
    rw [hpend n hn, hin, (hno n).1]
    rfl
  refine ⟨hok, ?_, ?_⟩
  · intro n hn
    rw [validate_valency_graph]
    exact hpend n hn
  · rw [consistency_ok_iff]
    refine ⟨?_, hok⟩
    rw [scan_forward_eq_none]
    intro n _ r hr
    rw [(hno n).2] at hr
    cases hr

theorem no_links_accepted_witness :
    (validate_valency bare3).ok = true ∧
      (∀ n ∈ bare3.operations, ((validate_valency bare3).graph.node n).num_links_pending = 0) ∧
      (DEG_debug_consistency_check bare3).ok = true :=
  no_links_accepted bare3 (fun _ => ⟨rfl, rfl⟩) (by decide)

/-- C7: a true result does not certify the reverse direction.  On `half_linked` the check
returns true although the relation in the inlinks of the operation `A` occurs once there
and not at all in the outlinks of its source; the scan over the inlinks prints the
mismatch and the check goes on. -/
theorem true_despite_inlink_mismatch :
    ∃ g : Depsgraph, (DEG_debug_consistency_check g).ok = true ∧
      (∃ n ∈ g.operations, ∃ r ∈ (g.node n).inlinks,
        (g.node n).inlinks.count r ≠ (g.node (g.relation r).from_).outlinks.count r) ∧
      (DEG_debug_consistency_check g).log = [Report.incoming_not_outgoing 1 0] :=
  ⟨half_linked, by decide, ⟨1, by decide, 0, by decide, by decide⟩, by decide⟩

/-- C8: `DEG_debug_compare` returns true exactly when the two operations lists have the
same length, whatever else differs (as for `chain3` and `bare3`, three operations each,
two relations against none), and it is reflexive, symmetric and transitive. -/
theorem compare_iff_same_count :
    (∀ g1 g2 : Depsgraph,
      DEG_debug_compare g1 g2 = true ↔ g1.operations.length = g2.operations.length) ∧
    DEG_debug_compare chain3 bare3 = true ∧
    (∀ g : Depsgraph, DEG_debug_compare g g = true) ∧
    (∀ g1 g2 : Depsgraph, DEG_debug_compare g1 g2 = DEG_debug_compare g2 g1) ∧
    (∀ g1 g2 g3 : Depsgraph, DEG_debug_compare g1 g2 = true → DEG_debug_compare g2 g3 = true →
      DEG_debug_compare g1 g3 = true) := by
  have hiff : ∀ g1 g2 : Depsgraph,
      DEG_debug_compare g1 g2 = true ↔ g1.operations.length = g2.operations.length := by
    intro g1 g2
    unfold DEG_debug_compare
    by_cases h : g1.operations.length = g2.operations.length <;> simp [h]
  refine ⟨hiff, by decide, fun g => (hiff g g).2 rfl, ?_, ?_⟩
  · intro g1 g2
    unfold DEG_debug_compare
    by_cases h : g1.operations.length = g2.operations.length
    · simp [h]
    · have h' : ¬ g2.operations.length = g1.operations.length := fun e => h e.symm
      simp [h, h']
  · intro g1 g2 g3 h12 h23
    exact (hiff g1 g3).2 (((hiff g1 g2).1 h12).trans ((hiff g2 g3).1 h23))

theorem compare_iff_same_count_witness :
    DEG_debug_compare chain3 bare3 = true ∧ DEG_debug_compare bare3 twice_listed = true ∧
      DEG_debug_compare chain3 twice_listed = true :=
  ⟨by decide, by decide,
    compare_iff_same_count.2.2.2.2 chain3 bare3 twice_listed (by decide) (by decide)⟩

/-- C9: with all three outputs requested, `DEG_stats_simple` writes the three totals
modulo `2 ^ 64`; when they fit `size_t` it yields outer = id nodes plus their components,
operations = length of the operations list, relations = inlinks sizes summed over every
operation of every component of every id node plus the inlinks size of the time source
when there is one; on a graph without operations, id nodes and time-source inlinks all
three are 0. -/
theorem stats_simple_counts :
    (∀ g : Depsgraph, DEG_stats_simple g true true true
      = (some (outer_count g % WRAP64), some (g.operations.length % WRAP64),
          some (relation_count g % WRAP64))) ∧
    (∀ g : Depsgraph, StatsFitSizeT g → DEG_stats_simple g true true true
      = (some (outer_count g), some g.operations.length, some (relation_count g))) ∧
    (∀ g : Depsgraph, g.operations = [] → g.id_nodes = [] →
      (∀ ts, g.time_source = some ts → (g.node ts).inlinks = []) →
      DEG_stats_simple g true true true = (some 0, some 0, some 0)) ∧
    DEG_stats_simple empty_graph true true true = (some 0, some 0, some 0) := by
  have hmod : ∀ g : Depsgraph, DEG_stats_simple g true true true
      = (some (outer_count g % WRAP64), some (g.operations.length % WRAP64),
          some (relation_count g % WRAP64)) := by
    intro g
    simp [DEG_stats_simple, stats_totals_eq]
  refine ⟨hmod, ?_, ?_, by decide⟩
  · intro g hfit
    rw [hmod, Nat.mod_eq_of_lt hfit.1, Nat.mod_eq_of_lt hfit.2.1, Nat.mod_eq_of_lt hfit.2.2]
  · intro g hops hids hts
    rw [hmod]
    have ho : outer_count g = 0 := by simp [outer_count, hids]
    have hr : relation_count g = 0 := by
      unfold relation_count
      rw [hids]
      cases hs : g.time_source with
      | none => simp
      | some ts => simp [hts ts hs]
    rw [ho, hr, hops]
    rfl

theorem stats_simple_counts_witness :
    StatsFitSizeT scene ∧ DEG_stats_simple scene true true true = (some 4, some 3, some 3) :=
  ⟨⟨by decide, by decide, by decide⟩,
    stats_simple_counts.2.1 scene ⟨by decide, by decide, by decide⟩⟩

/-- C10: `DEG_debug_consistency_check` leaves the operations list, the relations, the id
nodes and the time source as they were, and at every node the `type`, `inlinks` and
`outlinks`; `custom_flags` changes only at nodes of the operations list, and a node that
is neither in the operations list nor of type `OPERATION` is not changed at all; when the
forward scan finds a mismatch the check returns false with the graph untouched. -/
theorem consistency_check_frame (g : Depsgraph) :
    (DEG_debug_consistency_check g).graph.operations = g.operations ∧
    (DEG_debug_consistency_check g).graph.relation = g.relation ∧
    (DEG_debug_consistency_check g).graph.id_nodes = g.id_nodes ∧
    (DEG_debug_consistency_check g).graph.time_source = g.time_source ∧
    (∀ p, ((DEG_debug_consistency_check g).graph.node p).type = (g.node p).type ∧
      ((DEG_debug_consistency_check g).graph.node p).inlinks = (g.node p).inlinks ∧
      ((DEG_debug_consistency_check g).graph.node p).outlinks = (g.node p).outlinks) ∧
    (∀ p, p ∉ g.operations →
      ((DEG_debug_consistency_check g).graph.node p).custom_flags = (g.node p).custom_flags) ∧
    (∀ p, p ∉ g.operations → (g.node p).type ≠ NodeType.OPERATION →
      (DEG_debug_consistency_check g).graph.node p = g.node p) ∧
    (scan_forward g g.operations ≠ none →
      (DEG_debug_consistency_check g).ok = false ∧
        (DEG_debug_consistency_check g).graph.node = g.node) := by
  by_cases hs : scan_forward g g.operations = none
  · have hg := consistency_graph_of_links g hs
    obtain ⟨h1, h2, h3, h4⟩ := validate_valency_fields g
    have hreset : ∀ p, p ∉ g.operations → reset_valency g.operations g.node p = g.node p := by
      intro p hp
      rw [reset_valency_apply]
      simp [hp]
    refine ⟨hg ▸ h1, hg ▸ h2, hg ▸ h3, hg ▸ h4, sameLinks_consistency g, ?_, ?_,
      fun hne => absurd hs hne⟩
    · intro p hp
      rw [hg, validate_valency_graph]
      dsimp only
      rw [valency_pass1_flags_of_not_mem _ _ _ _ hp, hreset p hp]
    · intro p hp ht
      rw [hg, validate_valency_graph]
      dsimp only
      rw [valency_pass1_of_not_operation _ _ _ _ hp (by rw [hreset p hp]; exact ht),
        hreset p hp]
  · have hg := consistency_graph_of_mismatch g hs
    rw [hg]
    exact ⟨rfl, rfl, rfl, rfl, fun _ => ⟨rfl, rfl, rfl⟩, fun _ _ => rfl, fun _ _ _ => rfl,
      fun _ => ⟨(consistency_not_ok_of_mismatch g hs).2, rfl⟩⟩

theorem consistency_check_frame_witness :
    scan_forward stray_outlink stray_outlink.operations ≠ none ∧
      (DEG_debug_consistency_check stray_outlink).ok = false ∧
      (DEG_debug_consistency_check stray_outlink).graph.node = stray_outlink.node :=
  ⟨by decide, (consistency_check_frame stray_outlink).2.2.2.2.2.2.2 (by decide)⟩

/-- C11, as stated, fails: `stray_outlink` and `stray_outlink_stale` differ only in the
scratch fields of an operation; the check returns false on both from the forward scan,
before anything is reset, and leaves that operation with 0 and 0 in the one graph and
with 5 and 1 in the other. -/
theorem scratch_kept_on_link_failure :
    SameButScratch stray_outlink stray_outlink_stale ∧
      (DEG_debug_consistency_check stray_outlink).ok = false ∧
      (DEG_debug_consistency_check stray_outlink_stale).ok = false ∧
      0 ∈ stray_outlink.operations ∧
      ((DEG_debug_consistency_check stray_outlink).graph.node 0).num_links_pending = 0 ∧
      ((DEG_debug_consistency_check stray_outlink_stale).graph.node 0).num_links_pending = 5 ∧
      ((DEG_debug_consistency_check stray_outlink).graph.node 0).custom_flags = 0 ∧
      ((DEG_debug_consistency_check stray_outlink_stale).graph.node 0).custom_flags = 1 :=
  ⟨stray_outlink_stale_same, by decide, by decide, by decide, by decide, by decide, by decide,
    by decide⟩

/-- C11, amended: on two graphs that are identical except for the initial
`num_links_pending` and `custom_flags` of the nodes in the operations list, the check
returns the same boolean and prints the same lines, the valency part leaves the same heap,
and when the forward scan finds no mismatch the whole check leaves every node, those of
the operations list included, with the same `num_links_pending` and `custom_flags`. -/
theorem scratch_discarded (g1 g2 : Depsgraph) (h : SameButScratch g1 g2) :
    (DEG_debug_consistency_check g2).ok = (DEG_debug_consistency_check g1).ok ∧
    (DEG_debug_consistency_check g2).log = (DEG_debug_consistency_check g1).log ∧
    (validate_valency g2).graph.node = (validate_valency g1).graph.node ∧
    (scan_forward g1 g1.operations = none →
      ∀ p, (DEG_debug_consistency_check g2).graph.node p
        = (DEG_debug_consistency_check g1).graph.node p) := by
  have hv := validate_valency_congr g1 g2 h
  have hl := validate_links_congr g1 g2 h
  refine ⟨?_, ?_, by rw [hv], ?_⟩
  · unfold DEG_debug_consistency_check
    rw [hl, hv]
    rcases validate_links g1 with ⟨b, log⟩
    cases b <;> rfl
  · unfold DEG_debug_consistency_check
    rw [hl, hv]
    rcases validate_links g1 with ⟨b, log⟩
    cases b <;> rfl
  · intro hs p
    have hs2 : scan_forward g2 g2.operations = none := by
      rw [h.2.1, scan_forward_congr g1 g2 h.1 h.2.2.2.2.1]
      exact hs
    rw [consistency_graph_of_links g1 hs, consistency_graph_of_links g2 hs2, hv]

theorem scratch_discarded_witness :
    SameButScratch chain3 chain3_stale ∧
    (DEG_debug_consistency_check chain3_stale).ok = (DEG_debug_consistency_check chain3).ok ∧
    (∀ p, (DEG_debug_consistency_check chain3_stale).graph.node p
        = (DEG_debug_consistency_check chain3).graph.node p) :=
  ⟨chain3_stale_same, (scratch_discarded chain3 chain3_stale chain3_stale_same).1,
    (scratch_discarded chain3 chain3_stale chain3_stale_same).2.2.2 (by decide)⟩

/-- C12: `DEG_debug_consistency_check` returns true exactly when (1) every relation listed
in the outlinks of a node of the operations list occurs there as often as in the inlinks of
its destination, (2) the operations list has no repetition, and (3) for every node `m` of
the list the outlinks entries, over all nodes of the list, into the operation node `m` are
as many as the entries of `m`'s inlinks whose source is an operation node; what the scan
over the inlinks finds plays no part.  Stated for graphs whose link vectors fit the `int`
counters and whose pass 1 counts fit `uint32_t`. -/
theorem consistency_true_iff (g : Depsgraph) (hfit : LinksFitInt g) (hpend : PendingFits g) :
    (DEG_debug_consistency_check g).ok = true ↔
      (∀ n ∈ g.operations, ∀ r ∈ (g.node n).outlinks,
        (g.node n).outlinks.count r = (g.node (g.relation r).to_).inlinks.count r) ∧
      g.operations.Nodup ∧
      (∀ m ∈ g.operations,
        incoming_count g g.operations m = operation_sources g (g.node m).inlinks) := by
  have hout : ∀ n r, (g.node n).outlinks.count r % WRAP32 = (g.node n).outlinks.count r :=
    fun n r => Nat.mod_eq_of_lt
      (lt_of_le_of_lt (List.count_le_length r _) (lt_trans (hfit n).2 (by unfold WRAP32; omega)))
  have hin : ∀ n r, (g.node n).inlinks.count r % WRAP32 = (g.node n).inlinks.count r :=
    fun n r => Nat.mod_eq_of_lt
      (lt_of_le_of_lt (List.count_le_length r _) (lt_trans (hfit n).1 (by unfold WRAP32; omega)))
  have hsrc : ∀ m, operation_sources g (g.node m).inlinks % WRAP32
      = operation_sources g (g.node m).inlinks :=
    fun m => Nat.mod_eq_of_lt
      (lt_of_le_of_lt (List.countP_le_length _) (lt_trans (hfit m).1 (by unfold WRAP32; omega)))
  rw [consistency_ok_iff_mod]
  constructor
  · rintro ⟨h1, h2, h3⟩
    refine ⟨fun n hn r hr => ?_, h2, fun m hm => ?_⟩
    · have := h1 n hn r hr
      rwa [hout, hin] at this
    · have := h3 m hm
      rwa [Nat.mod_eq_of_lt (hpend m hm), hsrc] at this
  · rintro ⟨h1, h2, h3⟩
    refine ⟨fun n hn r hr => ?_, h2, fun m hm => ?_⟩
    · rw [h1 n hn r hr]
    · rw [h3 m hm]

theorem consistency_true_iff_witness :
    LinksFitInt chain3 ∧ PendingFits chain3 ∧
      (DEG_debug_consistency_check chain3).ok = true ∧
      ((∀ n ∈ chain3.operations, ∀ r ∈ (chain3.node n).outlinks,
        (chain3.node n).outlinks.count r
          = (chain3.node (chain3.relation r).to_).inlinks.count r) ∧
      chain3.operations.Nodup ∧
      (∀ m ∈ chain3.operations, incoming_count chain3 chain3.operations m
        = operation_sources chain3 (chain3.node m).inlinks)) :=
  ⟨chain3_fits, chain3_pending, chain3_ok,
    (consistency_true_iff chain3 chain3_fits chain3_pending).1 chain3_ok⟩

/-- C13: on a graph in which every relation listed in a node's outlinks has that node as
its source and every destination of type `OPERATION` of such a relation is in the
operations list, once the forward scan has found no mismatch the assertion
`to->num_links_pending < to->inlinks.size()` holds before every increment of pass 1, and
no node of the operations list ends with more than the size of its inlinks (for graphs
whose link vectors fit the `int` counters). -/
theorem pass1_assertion_holds (g : Depsgraph) (hfit : LinksFitInt g) (hplaced : OutPlaced g)
    (hdst : DestinationsListed g) (hscan : scan_forward g g.operations = none) :
    assert_pass1 g.relation g.operations (reset_valency g.operations g.node) = true ∧
      ∀ m ∈ g.operations,
        ((DEG_debug_consistency_check g).graph.node m).num_links_pending
          ≤ (g.node m).inlinks.length := by
  have hmatch : ∀ n ∈ [] ++ g.operations, ∀ r ∈ (g.node n).outlinks,
      (g.node n).outlinks.count r = (g.node (g.relation r).to_).inlinks.count r := by
    intro n hn r hr
    have h1 := (scan_forward_eq_none g g.operations).1 hscan n (by simpa using hn) r hr
    rw [count_links_of_short r _ (lt_trans (hfit n).2 (by unfold WRAP32; omega)),
      count_links_of_short r _ (lt_trans (hfit _).1 (by unfold WRAP32; omega))] at h1
    exact h1
  have hinv : ∀ m ∈ g.operations,
      (reset_valency g.operations g.node m).num_links_pending ≤ incoming_count g [] m := by
    intro m hm
    rw [reset_valency_apply]
    simp [hm]
  have key := assert_pass1_of_bound g g.operations hplaced g.operations []
    (reset_valency g.operations g.node) List.nodup_nil hmatch hdst (sameLinks_reset _ _)
    (fun p hp => absurd hp (List.not_mem_nil p)) hinv
  refine ⟨key.1, fun m hm => ?_⟩
  rw [consistency_graph_of_links g hscan, validate_valency_graph]
  exact key.2 m hm

theorem pass1_assertion_holds_witness :
    LinksFitInt chain3 ∧ OutPlaced chain3 ∧ DestinationsListed chain3 ∧
      scan_forward chain3 chain3.operations = none ∧
      assert_pass1 chain3.relation chain3.operations
        (reset_valency chain3.operations chain3.node) = true ∧
      ∀ m ∈ chain3.operations,
        ((DEG_debug_consistency_check chain3).graph.node m).num_links_pending
          ≤ (chain3.node m).inlinks.length :=
  ⟨chain3_fits, chain3_out_placed, chain3_destinations, by decide,
    pass1_assertion_holds chain3 chain3_fits chain3_out_placed chain3_destinations (by decide)⟩

/-- C14: on a graph in which every relation listed in a node's outlinks has that node as
its source, every relation listed in a node's inlinks has that node as its destination,
and every endpoint of a listed relation is an operation node, a true result of
`DEG_debug_consistency_check` means that every relation in the inlinks of a node `m` of
the operations list occurs as often in the outlinks of its source as in `m`'s inlinks, and
that its source is in the operations list (for graphs whose link vectors fit the `int`
counters). -/
theorem valency_covers_inlinks (g : Depsgraph) (hfit : LinksFitInt g) (hout : OutPlaced g)
    (hin : InPlaced g) (hop : OperationOnly g)
    (hok : (DEG_debug_consistency_check g).ok = true) :
    ∀ m ∈ g.operations, ∀ r ∈ (g.node m).inlinks,
      (g.node (g.relation r).from_).outlinks.count r = (g.node m).inlinks.count r ∧
        (g.relation r).from_ ∈ g.operations := by
  intro m hm r hr
  obtain ⟨-, hnd, h3⟩ := (consistency_ok_iff_mod g).1 hok
  have hmatch := forward_exact g hfit (consistency_ok_links g hok)
  have hto : (g.relation r).to_ = m := hin m r hr
  have htym : (g.node m).type = NodeType.OPERATION := by
    have := (hop m r (Or.inl hr)).2
    rwa [hto] at this
  have hsrc : operation_sources g (g.node m).inlinks = (g.node m).inlinks.length := by
    unfold operation_sources
    rw [List.countP_eq_length]
    intro r' hr'
    simpa using (hop m r' (Or.inl hr')).1
  have hle := incoming_count_le g m g.operations hnd (fun n _ => hout n) hmatch
  have hle2 : (g.node m).inlinks.countP (fun r => decide ((g.relation r).from_ ∈ g.operations))
      ≤ (g.node m).inlinks.length := List.countP_le_length _
  have hlen := (hfit m).1
  have hpend := h3 m hm
  rw [hsrc] at hpend
  unfold WRAP32 at hpend
  have hinc : incoming_count g g.operations m = (g.node m).inlinks.length := by omega
  have hall : (g.node m).inlinks.countP (fun r => decide ((g.relation r).from_ ∈ g.operations))
      = (g.node m).inlinks.length := by omega
  have hfrom : (g.relation r).from_ ∈ g.operations := by
    rw [List.countP_eq_length] at hall
    simpa using hall r hr
  refine ⟨?_, hfrom⟩
  have hterm := termwise_eq_of_sum_le g.operations
    (fun n => entries_into g m (g.node n).outlinks)
    (fun n => (g.node m).inlinks.countP (fun r => decide ((g.relation r).from_ = n)))
    (fun n hn => entries_into_le g m n (hout n) (hmatch n hn))
    (by
      rw [sum_countP_key (fun r => (g.relation r).from_) _ _ hnd, hall, ← hinc]
      exact le_refl _)
    (g.relation r).from_ hfrom
  dsimp only at hterm
  rw [entries_into_of_operation g m _ htym, List.countP_eq_length_filter] at hterm
  have hperm := (outlinks_into_subperm g m (g.relation r).from_ (hout _)
    (hmatch _ hfrom)).perm_of_length_le (le_of_eq hterm.symm)
  have hcount := hperm.count_eq r
  rwa [List.count_filter (p := fun r => decide ((g.relation r).to_ = m)) (by simpa using hto),
    List.count_filter (p := fun r' => decide ((g.relation r').from_ = (g.relation r).from_))
      (by simp)] at hcount

theorem valency_covers_inlinks_witness :
    LinksFitInt chain3 ∧ OutPlaced chain3 ∧ InPlaced chain3 ∧ OperationOnly chain3 ∧
      (DEG_debug_consistency_check chain3).ok = true ∧
      ∀ m ∈ chain3.operations, ∀ r ∈ (chain3.node m).inlinks,
        (chain3.node (chain3.relation r).from_).outlinks.count r
          = (chain3.node m).inlinks.count r ∧
        (chain3.relation r).from_ ∈ chain3.operations :=
  ⟨chain3_fits, chain3_out_placed, chain3_in_placed, chain3_operation_only, chain3_ok,
    valency_covers_inlinks chain3 chain3_fits chain3_out_placed chain3_in_placed
      chain3_operation_only chain3_ok⟩

/-- C15: the check accepts every well-formed graph.  When the operations list has no
repetition and holds operation nodes, every relation occurs in its source's outlinks as
often as in its destination's inlinks and in no other node's lists, and every endpoint of
type `OPERATION` of a listed relation is in the operations list,
`DEG_debug_consistency_check` returns true, the count of pass 1 being for every node of
the list the count of pass 2. -/
theorem well_formed_accepted (g : Depsgraph) (hnd : g.operations.Nodup) (hmir : Mirrored g)
    (hout : OutPlaced g) (hin : InPlaced g) (hlisted : EndpointsListed g)
    (htyped : OperationsTyped g) :
    (DEG_debug_consistency_check g).ok = true ∧
      ∀ m ∈ g.operations,
        incoming_count g g.operations m = operation_sources g (g.node m).inlinks := by
  have hcounts := incoming_eq_sources g hnd hmir hout hin hlisted htyped
  refine ⟨?_, hcounts⟩
  rw [consistency_ok_iff_mod]
  refine ⟨fun n _ r hr => ?_, hnd, fun m hm => by rw [hcounts m hm]⟩
  have := hmir r
  rw [hout n r hr] at this
  rw [this]

theorem well_formed_accepted_witness :
    chain3.operations.Nodup ∧ Mirrored chain3 ∧ OutPlaced chain3 ∧ InPlaced chain3 ∧
      EndpointsListed chain3 ∧ OperationsTyped chain3 ∧
      (DEG_debug_consistency_check chain3).ok = true :=
  ⟨by decide, chain3_mirrored, chain3_out_placed, chain3_in_placed, chain3_endpoints,
    chain3_typed,
    (well_formed_accepted chain3 (by decide) chain3_mirrored chain3_out_placed chain3_in_placed
      chain3_endpoints chain3_typed).1⟩

/-- C16 does not hold of the code: the check against `ID_RECALC_PSYS_ALL` appends the
combined tag but leaves its bits in `current_flag`, so the loop hands every bit of the
mask to `stringify_append_bit` as well.  For every naming function, mask and 32-bit
`flags` containing the mask, the result is the combined tag followed by the single-bit
tags of all set bits, those of the mask among them; with `sample_tag_name` the flags value
`120` gives `"PSYS_ALL, PSYS_REDO, PSYS_RESET, PSYS_CHILD, PSYS_PHYS"`. -/
theorem combined_tag_split_anyway :
    (∀ (name : Nat → Option String) (mask flags i : Nat), flags < 2 ^ 32 → flags ≠ 0 →
      flags &&& mask = mask → mask.testBit i = true →
      DEG_stringify_recalc_flags name mask flags
        = some ((mask :: (set_bits flags).map (fun i => 2 ^ i)).foldl
            (stringify_append_bit name) "") ∧
      2 ^ i ∈ (set_bits flags).map (fun i => 2 ^ i)) ∧
    DEG_stringify_recalc_flags sample_tag_name 120 120
      = some "PSYS_ALL, PSYS_REDO, PSYS_RESET, PSYS_CHILD, PSYS_PHYS" ∧
    loop_tags 32 120 = some [8, 16, 32, 64] := by
  refine ⟨?_, by decide, by decide⟩
  intro name mask flags i hflags hne hmask hbit
  constructor
  · rw [stringify_eq_foldl name mask flags hflags hne]
    simp [handled_tags, hmask]
  · have hflag : flags.testBit i = true := by
      have := congrArg (fun x => x.testBit i) hmask
      simp only [Nat.testBit_and, hbit, Bool.and_true] at this
      exact this
    exact List.mem_map.2 ⟨i, (mem_set_bits_of_lt flags i hflags).2 hflag, rfl⟩

theorem combined_tag_split_anyway_witness :
    DEG_stringify_recalc_flags sample_tag_name 120 120
        = some ((120 :: (set_bits 120).map (fun i => 2 ^ i)).foldl
            (stringify_append_bit sample_tag_name) "") ∧
      2 ^ 3 ∈ (set_bits 120).map (fun i => 2 ^ i) :=
  combined_tag_split_anyway.1 sample_tag_name 120 120 3 (by decide) (by decide) (by decide)
    (by decide)

/-- C17, as stated, fails for a tag-naming function that gives a tag the empty name: with
`blank_last` the flags value `3` gives `"A, "`, which ends with the separator, and with
`blank_first` it gives `"A"`, which is not the two names joined by `", "`. -/
theorem empty_name_breaks_joining :
    DEG_stringify_recalc_flags blank_last 120 3 = some "A, " ∧
    DEG_stringify_recalc_flags blank_first 120 3 = some "A" ∧
    joined_names blank_first 120 3 = ", A" := by decide

/-- C17, amended: for every 32-bit `flags`, every mask and every tag-naming function that
gives no tag the empty name, `DEG_stringify_recalc_flags` returns, and returns `"NONE"`
when `flags` is 0; when `flags` is not 0 and does not contain the whole mask, the result is
the names of the single-bit tags of `flags` that have a name, in ascending bit order,
joined by `", "`; when it contains the whole mask and the combined tag has a name, the
result begins with that name; started on any 32-bit `current_flag`, the loop ends within
its 32 rounds and makes one round per set bit, from the lowest to the highest. -/
theorem stringify_joined (name : Nat → Option String) (mask flags : Nat)
    (hflags : flags < 2 ^ 32) (hnames : ∀ tag, name tag ≠ some "") :
    (∃ s, DEG_stringify_recalc_flags name mask flags = some s) ∧
    (flags = 0 → DEG_stringify_recalc_flags name mask flags = some "NONE") ∧
    (flags ≠ 0 → flags &&& mask ≠ mask →
      DEG_stringify_recalc_flags name mask flags
        = some (", ".intercalate (((set_bits flags).map (fun i => 2 ^ i)).filterMap name))) ∧
    (flags ≠ 0 → flags &&& mask = mask → ∀ s, name mask = some s →
      ∃ t, DEG_stringify_recalc_flags name mask flags = some (s ++ t)) ∧
    (∀ current_flag, current_flag < 2 ^ 32 →
      (∀ res, stringify_loop name 32 current_flag res
        = some (((set_bits current_flag).map (fun i => 2 ^ i)).foldl
            (stringify_append_bit name) res)) ∧
      loop_tags 32 current_flag = some ((set_bits current_flag).map (fun i => 2 ^ i)) ∧
      (set_bits current_flag).Sorted (· < ·) ∧
      (∀ i, i ∈ set_bits current_flag ↔ current_flag.testBit i = true)) := by
  have hjoin : ∀ tags : List Nat,
      tags.foldl (stringify_append_bit name) "" = ", ".intercalate (tags.filterMap name) := by
    intro tags
    rw [foldl_append_bit, foldl_append_name_eq]
    intro s hs
    obtain ⟨tag, -, htag⟩ := List.mem_filterMap.1 hs
    intro he
    exact hnames tag (he ▸ htag)
  refine ⟨?_, fun hz => by subst hz; rfl, ?_, ?_, ?_⟩
  · by_cases hz : flags = 0
    · subst hz
      exact ⟨"NONE", rfl⟩
    · exact ⟨_, stringify_eq_foldl name mask flags hflags hz⟩
  · intro hz hmask
    rw [stringify_eq_foldl name mask flags hflags hz, hjoin]
    simp [handled_tags, hmask]
  · intro hz hmask s hs
    rw [stringify_eq_foldl name mask flags hflags hz]
    have hfirst : stringify_append_bit name "" mask = s := by
      simp [stringify_append_bit, hs]
    obtain ⟨t, ht⟩ := foldl_append_bit_extends name ((set_bits flags).map (fun i => 2 ^ i)) s
    refine ⟨t, ?_⟩
    simp only [handled_tags, hmask, if_true, List.singleton_append, List.foldl_cons, hfirst, ht]
  · intro current_flag hcur
    exact ⟨stringify_loop_set_bits name current_flag hcur,
      loop_tags_eq 32 current_flag hcur (set_bits_length_le current_flag),
      set_bits_sorted current_flag, fun i => mem_set_bits_of_lt current_flag i hcur⟩

theorem stringify_joined_witness :
    (7 : Nat) < 2 ^ 32 ∧ (∀ tag, sample_tag_name tag ≠ some "") ∧ (7 : Nat) ≠ 0 ∧
      (7 : Nat) &&& 120 ≠ 120 ∧
      DEG_stringify_recalc_flags sample_tag_name 120 7
        = some "TRANSFORM, GEOMETRY, ANIMATION" :=
  ⟨by decide, sample_tag_name_ne_empty, by decide, by decide,
    (stringify_joined sample_tag_name 120 7 (by decide) sample_tag_name_ne_empty).2.2.1
      (by decide) (by decide)⟩

end DegDebug
